import Mathlib

/-!
Verification of the subtitle-assembly core of whisper-studio
(`webui/srt_utils.py`) against its design document.

The Python module is shallowly embedded here: times (Python `float`
seconds) are modelled as exact rationals `ℚ`, Python strings as Lean
`String`/`List Char`, Python `set`s of trigrams as duplicate-free lists,
and fallible parsing (`try/except`, regex `None`) as `Option`.  Every
definition mirrors one Python function or loop of the source file; the
claims of the design document are then settled as theorems about these
definitions.
-/

/-! ## Python character/string primitives

Helpers mirroring the exact semantics of the Python `str` operations the
module uses (`strip`, `split`, `lower`, `str.translate` with
`string.punctuation`, whitespace classification).  They operate on
`List Char`; `String` values are converted via `.data`.
-/

/-- Python whitespace for `str.strip()`/`str.split()` (the six ASCII
whitespace characters; the module's data never contains the exotic
Unicode spaces). -/
def pyWs (c : Char) : Bool :=
  c = ' ' || c = '\t' || c = '\n' || c = '\r' || c.toNat = 11 || c.toNat = 12

/-- Python `str.lower()` restricted to ASCII and the Latin-1 letters
(`É` → `é` etc.), which covers the French subtitle text this module
processes. -/
def lowerChar (c : Char) : Char :=
  if 65 ≤ c.toNat && c.toNat ≤ 90 then Char.ofNat (c.toNat + 32)
  else if 192 ≤ c.toNat && c.toNat ≤ 222 && c.toNat ≠ 215 then Char.ofNat (c.toNat + 32)
  else c

/-- `string.punctuation` membership: the 32 ASCII punctuation characters
(codes 33–47, 58–64, 91–96, 123–126). -/
def isPunctChar (c : Char) : Bool :=
  (33 ≤ c.toNat && c.toNat ≤ 47) || (58 ≤ c.toNat && c.toNat ≤ 64) ||
  (91 ≤ c.toNat && c.toNat ≤ 96) || (123 ≤ c.toNat && c.toNat ≤ 126)

/-- Python `str.lstrip()`. -/
def pyLstrip (l : List Char) : List Char := l.dropWhile pyWs

/-- Python `str.rstrip()`. -/
def pyRstrip (l : List Char) : List Char := (l.reverse.dropWhile pyWs).reverse

/-- Python `str.strip()`. -/
def pyStrip (l : List Char) : List Char := pyLstrip (pyRstrip l)

/-- Python `str.split('\n')` (single-character separator, keeps empty
pieces). -/
def split1NL : List Char → List (List Char)
  | [] => [[]]
  | c :: rest =>
    if c = '\n' then [] :: split1NL rest
    else
      match split1NL rest with
      | [] => [[c]]
      | p :: ps => (c :: p) :: ps

/-- Python `str.split('\n\n')` (two-character separator, non-overlapping,
left to right, keeps empty pieces). -/
def split2NL : List Char → List (List Char)
  | [] => [[]]
  | [c] => [[c]]
  | c :: d :: rest2 =>
    if c = '\n' then
      if d = '\n' then [] :: split2NL rest2
      else
        match split2NL (d :: rest2) with
        | [] => [[c]]
        | p :: ps => (c :: p) :: ps
    else
      match split2NL (d :: rest2) with
      | [] => [[c]]
      | p :: ps => (c :: p) :: ps

/-- Accumulator loop for Python `str.split()` (split on whitespace runs,
discarding empty pieces). `cur` is the word being accumulated, reversed. -/
def splitWSGo (cur : List Char) : List Char → List (List Char)
  | [] => if cur = [] then [] else [cur.reverse]
  | c :: rest =>
    if pyWs c then
      if cur = [] then splitWSGo [] rest else cur.reverse :: splitWSGo [] rest
    else splitWSGo (c :: cur) rest

/-- Python `str.split()` with no argument. -/
def splitWS (l : List Char) : List (List Char) := splitWSGo [] l

/-- Does `pat` occur as a leading run of `l`? -/
def startsWithSeq : List Char → List Char → Bool
  | [], _ => true
  | _ :: _, [] => false
  | p :: ps, c :: cs => p = c && startsWithSeq ps cs

/-- Does `pat` occur anywhere inside `l` (Python `in` / `re.search` of a
literal)? -/
def containsSeq (pat : List Char) : List Char → Bool
  | [] => startsWithSeq pat []
  | c :: cs => startsWithSeq pat (c :: cs) || containsSeq pat cs

/-- Fuel-driven digit rendering (structural recursion, so that concrete
values reduce inside the kernel); `natRepr` supplies sufficient fuel. -/
def natReprGo : ℕ → ℕ → List Char
  | 0, _ => []
  | fuel + 1, n =>
    if n < 10 then [Nat.digitChar n]
    else natReprGo fuel (n / 10) ++ [Nat.digitChar (n % 10)]

/-- Decimal rendering of a natural number, as Python `str(n)` produces. -/
def natRepr (n : ℕ) : List Char := natReprGo (n + 1) n

/-- Python `f"{n:02d}"` for a nonnegative value. -/
def pad2 (n : ℕ) : List Char := if n < 10 then '0' :: natRepr n else natRepr n

/-- Python `f"{n:03d}"` for a nonnegative value. -/
def pad3 (n : ℕ) : List Char :=
  if n < 10 then '0' :: '0' :: natRepr n
  else if n < 100 then '0' :: natRepr n
  else natRepr n

/-- Numeric value of an ASCII digit character. -/
def digitVal (c : Char) : ℕ := c.toNat - 48

/-- Is `c` an ASCII digit (`\d` on this module's ASCII timecodes)? -/
def isDigitChar (c : Char) : Bool := 48 ≤ c.toNat && c.toNat ≤ 57

/-- Value of a nonempty all-digit string read in base 10. -/
def digitsVal (l : List Char) : ℕ := l.foldl (fun acc c => 10 * acc + digitVal c) 0

/-- Python `int(s)` on a string: optional surrounding whitespace, optional
sign, then one or more digits (`None` on anything else).  Underscore
digit grouping, which cannot occur in this pipeline's data, is not
modelled. -/
def pyToInt? (l : List Char) : Option ℤ :=
  match pyStrip l with
  | [] => none
  | c :: ds =>
    if c = '-' then
      if ds ≠ [] && ds.all isDigitChar then some (-(digitsVal ds : ℤ)) else none
    else if c = '+' then
      if ds ≠ [] && ds.all isDigitChar then some (digitsVal ds : ℤ) else none
    else if (c :: ds).all isDigitChar then some (digitsVal (c :: ds) : ℤ) else none

/-- Join a list of character lists with a single separator character
(Python `sep.join`). -/
def joinWith (sep : Char) : List (List Char) → List Char
  | [] => []
  | [p] => p
  | p :: ps => p ++ sep :: joinWith sep ps

/-- Python float `%` (`a - b * floor(a / b)`), exact on rationals. -/
def pymodQ (a b : ℚ) : ℚ := a - b * ⌊a / b⌋

/-- Python `int(x)` on a float/rational: truncation toward zero. -/
def pyTrunc (q : ℚ) : ℤ := if 0 ≤ q then ⌊q⌋ else -⌊-q⌋

/-! ## The cue model (`SRTSegment`) -/

/-- One SRT subtitle cue, as the Python class `SRTSegment`: index, start
and end times in seconds, display text. -/
structure SRTSegment where
  index : ℤ
  start_time : ℚ
  end_time : ℚ
  text : String
deriving DecidableEq, Repr

/-! ## Timecode codec (`parse_timestamp` / `format_srt_timestamp`) -/

/-- `parse_timestamp(hours, minutes, seconds, milliseconds)`:
`h*3600 + m*60 + s + ms/1000`.  The Python function receives the four
regex groups as digit strings and `int()`s them; here it receives the
numeric values (the digit extraction lives in `readTimestampChars`). -/
def parse_timestamp (h m s ms : ℕ) : ℚ :=
  (h : ℚ) * 3600 + (m : ℚ) * 60 + (s : ℚ) + (ms : ℚ) / 1000

/-- `format_srt_timestamp(seconds)`: truncate to whole hours, minutes,
seconds, then whole milliseconds, rendered `HH:MM:SS,mmm`.  Python's
`int()` equals `Int.floor` on every value arising here (`x // y` is
already floored, and the `%` remainders are nonnegative); `.toNat` is
exact for nonnegative times, the only domain the module feeds it. -/
def format_srt_timestamp (seconds : ℚ) : String :=
  let hours := (⌊seconds / 3600⌋).toNat
  let minutes := (⌊pymodQ seconds 3600 / 60⌋).toNat
  let secs := (⌊pymodQ seconds 60⌋).toNat
  let milliseconds := (⌊pymodQ seconds 1 * 1000⌋).toNat
  String.mk (pad2 hours ++ ':' :: pad2 minutes ++ ':' :: pad2 secs ++ ',' :: pad3 milliseconds)

/-- Read one `\d{2}:\d{2}:\d{2},\d{3}` timecode from the front of a
character list (the fixed-width regex fragment used by `parse_srt`),
returning its value via `parse_timestamp` and the unread remainder. -/
def readTimestampChars : List Char → Option (ℚ × List Char)
  | h1 :: h2 :: ':' :: m1 :: m2 :: ':' :: s1 :: s2 :: ',' :: x1 :: x2 :: x3 :: rest =>
    if isDigitChar h1 && isDigitChar h2 && isDigitChar m1 && isDigitChar m2 &&
       isDigitChar s1 && isDigitChar s2 && isDigitChar x1 && isDigitChar x2 &&
       isDigitChar x3 then
      some (parse_timestamp (10 * digitVal h1 + digitVal h2)
              (10 * digitVal m1 + digitVal m2)
              (10 * digitVal s1 + digitVal s2)
              (100 * digitVal x1 + 10 * digitVal x2 + digitVal x3), rest)
    else none
  | _ => none

/-- Parse a single `HH:MM:SS,mmm` string as the module's regex would read
it (`re.match` semantics: anchored at the start, trailing characters
ignored). -/
def parseTimestampStr (s : String) : Option ℚ :=
  (readTimestampChars s.data).map Prod.fst

/-- The timecode line of `parse_srt`:
`(\d{2}):(\d{2}):(\d{2}),(\d{3})\s*-->\s*(\d{2}):(\d{2}):(\d{2}),(\d{3})`,
anchored at the start of the line, trailing characters ignored. -/
def parseTimeLine (l : List Char) : Option (ℚ × ℚ) :=
  match readTimestampChars l with
  | none => none
  | some (t1, r1) =>
    match r1.dropWhile pyWs with
    | '-' :: '-' :: '>' :: r2 =>
      match readTimestampChars (r2.dropWhile pyWs) with
      | none => none
      | some (t2, _) => some (t1, t2)
    | _ => none

/-! ## SRT block parsing (`parse_srt`) and serialization -/

/-- One block of `parse_srt`'s loop body: at least three lines (index
line, timecode line, text), an `int()`-parsable index, a timecode line
matching the regex; otherwise the block is silently skipped (`None`).
The text is every line from the third on, rejoined with newlines. -/
def parseBlock (b : List Char) : Option SRTSegment :=
  let lines := split1NL (pyStrip b)
  if lines.length < 3 then none
  else
    match pyToInt? (lines.headD []) with
    | none => none
    | some idx =>
      match parseTimeLine (lines.getD 1 []) with
      | none => none
      | some (st, en) => some ⟨idx, st, en, String.mk (joinWith '\n' (lines.drop 2))⟩

/-- `parse_srt(srt_content)`: strip, split on blank lines, parse each
block, silently dropping malformed ones. -/
def parse_srt (s : String) : List SRTSegment :=
  (split2NL (pyStrip s.data)).filterMap parseBlock

/-- The `start_str --> end_str` line the serializers emit. -/
def timeLineChars (seg : SRTSegment) : List Char :=
  (format_srt_timestamp seg.start_time).data ++
    ' ' :: '-' :: '-' :: '>' :: ' ' :: (format_srt_timestamp seg.end_time).data

/-- The flat line list the serialization loops build: for the `i`-th cue
(1-based) the lines `str(i)`, `start --> end`, the text, and an empty
separator line. -/
def serializeLines : ℕ → List SRTSegment → List (List Char)
  | _, [] => []
  | i, seg :: rest =>
    natRepr (i + 1) :: timeLineChars seg :: seg.text.data :: [] :: serializeLines (i + 1) rest

/-- The serialization step shared verbatim by `merge_srt_segments`
(lines 416–426) and `clean_hallucinations` (lines 571–581): re-index
1..N in order, emit `index\nstart --> end\ntext\n\n` blocks joined with
newlines. -/
def serializeSegments (segs : List SRTSegment) : String :=
  String.mk (joinWith '\n' (serializeLines 0 segs))

/-! ## Trigram Jaccard similarity (`calculate_jaccard_trigram`) -/

/-- All overlapping 3-character windows of a string. -/
def trigramWindows : List Char → List (List Char)
  | [] => []
  | a :: rest =>
    match rest with
    | b :: c :: _ => [a, b, c] :: trigramWindows rest
    | _ => []

/-- `get_trigrams`: lowercase, strip, and take the set of character
trigrams; a string shorter than 3 characters contributes the singleton
set of itself.  Python sets are modelled as duplicate-free lists. -/
def get_trigrams (t : String) : List (List Char) :=
  let x := pyStrip (t.data.map lowerChar)
  if x.length < 3 then [x] else (trigramWindows x).eraseDups

/-- `calculate_jaccard_trigram(text1, text2)`:
`|intersection| / |union|` of the trigram sets (with the source's guard
branches for empty sets, unreachable since `get_trigrams` never returns
an empty set). -/
def calculate_jaccard_trigram (text1 text2 : String) : ℚ :=
  let t1 := get_trigrams text1
  let t2 := get_trigrams text2
  if t1 = [] && t2 = [] then 1
  else if t1 = [] || t2 = [] then 0
  else
    let inter := t1.filter (fun g => t2.contains g)
    let union := (t1 ++ t2).eraseDups
    if union.length = 0 then 0 else (inter.length : ℚ) / (union.length : ℚ)

/-! ## Chunk Merger (`remove_overlapping_segments`) -/

/-- The normalized word list the Merger compares at chunk boundaries:
lowercase, newlines to spaces, punctuation deleted, split on
whitespace. -/
def normalizedWords (t : String) : List (List Char) :=
  splitWS (((t.data.map lowerChar).map (fun c => if c = '\n' then ' ' else c)).filter
    (fun c => !isPunctChar c))

/-- The Merger's boundary-word check: with `n = min(5, len(prev_words),
len(curr_words))` and `n ≥ 2`, do at least 2 of the first `n` words of
the current text (counted with multiplicity) occur among the last `n`
words of the previous text? -/
def hasBoundaryOverlap (prevText currText : String) : Bool :=
  let pw := normalizedWords prevText
  let cw := normalizedWords currText
  let n := min 5 (min pw.length cw.length)
  if 2 ≤ n then
    let prevEnd := pw.drop (pw.length - n)
    let currStart := cw.take n
    2 ≤ (currStart.filter (fun w => prevEnd.contains w)).length
  else false

/-- One iteration of the Merger's STEP-2 loop, acting on the accepted
list `cleaned` (never empty at the call sites) and the candidate
`current`.  The source re-tests `current.start_time < previous.end_time`
before nudging; inside that branch the test is identically true and is
elided here. -/
def mergeStep (cleaned : List SRTSegment) (current : SRTSegment) : List SRTSegment :=
  match cleaned.getLast? with
  | none => cleaned ++ [current]
  | some previous =>
    if current.start_time < previous.end_time then
      if calculate_jaccard_trigram previous.text current.text > 1/2 ||
         hasBoundaryOverlap previous.text current.text then
        cleaned.dropLast ++
          [{ previous with
              end_time := max previous.end_time current.end_time,
              text := if current.text.length > previous.text.length then current.text
                      else previous.text }]
      else
        cleaned ++ [{ current with start_time := previous.end_time + 1/10 }]
    else cleaned ++ [current]

/-- `remove_overlapping_segments(segments)`: STEP 1 drops cues with
`start >= end`; STEP 2 walks the remainder, merging overlap duplicates
or nudging genuine collisions. -/
def remove_overlapping_segments (segments : List SRTSegment) : List SRTSegment :=
  let valid := segments.filter (fun s => s.start_time < s.end_time)
  match valid with
  | [] => []
  | first :: rest => rest.foldl mergeStep [first]

/-! ## Hallucination detection (`detect_tv_credits`) -/

/-- Characters matched by the one-character class `[\s-]` of the credit
patterns. -/
def sepClassChars : List Char := [' ', '\t', '\n', '\r', Char.ofNat 11, Char.ofNat 12, '-']

/-- `re.search(r'sous[\s-]?titrage', s)`: the literal with zero or one
separator character between the two halves. -/
def matchSousTitrage (l : List Char) : Bool :=
  containsSeq "soustitrage".data l ||
    sepClassChars.any (fun c => containsSeq ("sous".data ++ c :: "titrage".data) l)

/-- Eat an exact literal from the front, returning the remainder. -/
def eatSeq (pat l : List Char) : Option (List Char) :=
  if startsWithSeq pat l then some (l.drop pat.length) else none

/-- Eat `\s+` (one or more whitespace characters, greedily — no
backtracking is needed because the following literal starts with a
non-whitespace character). -/
def eatWs1 (l : List Char) : Option (List Char) :=
  match l with
  | c :: rest => if pyWs c then some (rest.dropWhile pyWs) else none
  | [] => none

/-- `soci[eé]t[eé]\s+radio[\s-]?canada` anchored at the current
position. -/
def matchSocieteHere (l : List Char) : Bool :=
  (List.any ['e', 'é'] fun e1 =>
    List.any ['e', 'é'] fun e2 =>
      match eatSeq ("soci".data ++ e1 :: 't' :: [e2]) l with
      | none => false
      | some r1 =>
        match eatWs1 r1 with
        | none => false
        | some r2 =>
          match eatSeq "radio".data r2 with
          | none => false
          | some r3 =>
            (eatSeq "canada".data r3).isSome ||
              sepClassChars.any (fun c => (eatSeq (c :: "canada".data) r3).isSome))

/-- `re.search` of the société pattern: try every start position. -/
def matchSociete : List Char → Bool
  | [] => matchSocieteHere []
  | c :: cs => matchSocieteHere (c :: cs) || matchSociete cs

/-- The common tail `\s*[.!]?\s*$` of the anchored acknowledgement
patterns. -/
def ackTail (l : List Char) : Bool :=
  match l.dropWhile pyWs with
  | [] => true
  | c :: rest => (c = '.' || c = '!') && rest.dropWhile pyWs = []

/-- An anchored pattern `^word\s*[.!]?\s*$`. -/
def matchBareWord (w : List Char) (l : List Char) : Bool :=
  match eatSeq w l with
  | none => false
  | some r => ackTail r

/-- `^très\s+bien\s*[.!]?\s*$`. -/
def matchTresBien (l : List Char) : Bool :=
  match eatSeq "très".data l with
  | none => false
  | some r1 =>
    match eatWs1 r1 with
    | none => false
    | some r2 => matchBareWord "bien".data r2

/-- `^\[.*\]$` (and, with `♪`, `^♪.*♪$`): the whole stripped string is a
single line delimited by the two characters (`.` does not cross a
newline; `^`/`$` anchor the stripped string). -/
def matchDelimited (first last : Char) (l : List Char) : Bool :=
  match l with
  | [] => false
  | c :: rest =>
    c = first && rest ≠ [] && rest.getLastD ' ' = last && !(rest.dropLast.contains '\n')

/-- `detect_tv_credits(text)`: lowercase + strip, then try the ten
hallucination patterns. -/
def detect_tv_credits (text : String) : Bool :=
  let normalized := pyStrip (text.data.map lowerChar)
  matchSousTitrage normalized ||
  matchSociete normalized ||
  containsSeq "production".data normalized ||
  containsSeq "realisation".data normalized ||
  containsSeq "réalisation".data normalized ||
  matchBareWord "merci".data normalized ||
  matchTresBien normalized ||
  matchBareWord "ok".data normalized ||
  matchBareWord "ah".data normalized ||
  matchDelimited '[' ']' normalized ||
  matchDelimited '♪' '♪' normalized

/-! ## Hallucination Filter (`clean_hallucinations`) -/

/-- The stock-phrase suppression test of `clean_hallucinations`
(`detect_tv_credits(text) and len(text) < 100 and word_count <= 6`, on
the stripped text). -/
def creditDropped (seg : SRTSegment) : Bool :=
  let t := pyStrip seg.text.data
  detect_tv_credits (String.mk t) && t.length < 100 && (splitWS t).length ≤ 6

/-- One iteration of `clean_hallucinations`' loop: keep empty cues, drop
stock-phrase hallucinations, fuse temporal overlaps with similarity
≥ 0.6 (keeping the longer text), fuse near-duplicates (gap ≤
`time_merge_sec`, similarity ≥ `similarity_threshold`), else keep. -/
def cleanStep (time_merge_sec similarity_threshold : ℚ)
    (output : List SRTSegment) (segment : SRTSegment) : List SRTSegment :=
  let t := pyStrip segment.text.data
  if t = [] then output ++ [segment]
  else if detect_tv_credits (String.mk t) && t.length < 100 && (splitWS t).length ≤ 6 then
    output
  else
    match output.getLast? with
    | none => output ++ [segment]
    | some last =>
      if segment.start_time < last.end_time &&
         calculate_jaccard_trigram (String.mk t) last.text ≥ 3/5 then
        if (String.mk t).length > last.text.length then
          output.dropLast ++
            [{ last with
                text := String.mk t,
                end_time := max last.end_time segment.end_time }]
        else
          output.dropLast ++ [{ last with end_time := max last.end_time segment.end_time }]
      else if segment.start_time - last.end_time ≤ time_merge_sec &&
              calculate_jaccard_trigram (String.mk t) last.text ≥ similarity_threshold then
        output.dropLast ++ [{ last with end_time := max last.end_time segment.end_time }]
      else output ++ [segment]

/-- The filter loop of `clean_hallucinations` on an already-parsed cue
list. -/
def cleanLoop (time_merge_sec similarity_threshold : ℚ)
    (segs : List SRTSegment) : List SRTSegment :=
  segs.foldl (cleanStep time_merge_sec similarity_threshold) []

/-- `clean_hallucinations(srt_content, time_merge_sec=3.0,
similarity_threshold=0.9)`: parse, filter, re-serialize (input returned
unchanged when it parses to no cues). -/
def clean_hallucinations (srt_content : String) (time_merge_sec : ℚ := 3)
    (similarity_threshold : ℚ := 9/10) : String :=
  let segments := parse_srt srt_content
  if segments = [] then srt_content
  else serializeSegments (cleanLoop time_merge_sec similarity_threshold segments)

/-! ## Word Grouper (`group_words_into_subtitles`) -/

/-- One word-level token from the recognition backend (a Python dict with
keys `word`, `start`, `end`; `end` is a Lean keyword, so the field is
named `stop`). -/
structure WordTok where
  word : String
  start : ℚ
  stop : ℚ
deriving DecidableEq, Repr

/-- The leading contraction/punctuation markers the token-repair pass
looks for: apostrophe, hyphen, en-dash. -/
def markerChars : List Char := [Char.ofNat 39, '-', '–']

/-- Does a (stripped) token text begin with a marker character? -/
def startsMarker : List Char → Bool
  | [] => false
  | c :: _ => markerChars.contains c

/-- One iteration of the token-repair pass: skip whitespace-only tokens;
merge a marker-initial token into the previous kept token (previous text
`rstrip`ped, no space, previous end time set to this token's end);
otherwise keep the token as-is. -/
def tokenMergeStep (acc : List WordTok) (w : WordTok) : List WordTok :=
  let t := pyStrip w.word.data
  if t = [] then acc
  else if startsMarker t && !acc.isEmpty then
    match acc.getLast? with
    | none => acc ++ [w]
    | some prev =>
      acc.dropLast ++
        [{ prev with word := String.mk (pyRstrip prev.word.data ++ t), stop := w.stop }]
  else acc ++ [w]

/-- The token-repair preprocessing loop (lines 113–129 of the source): the
`i > 0` guard is subsumed by the accumulator being nonempty. -/
def mergeSplitTokens (ws : List WordTok) : List WordTok := ws.foldl tokenMergeStep []

/-- One line under construction inside `create_segment_from_words`: its
word tokens and its rendered text (space-joined stripped words). -/
structure SubLine where
  lineWords : List WordTok
  lineText : List Char
deriving DecidableEq, Repr

/-- `' '.join(w['word'].strip() for w in ws)`. -/
def lineTextOf (ws : List WordTok) : List Char :=
  joinWith ' ' (ws.map (fun w => pyStrip w.word.data))

/-- The line-construction loop of `create_segment_from_words`: break at a
comma/semicolon on the previous token, at a pause ≥ 0.8 s, or when the
length budget is exceeded.  `prev?` is the raw previous buffer element
(`words_buffer[i-1]`), `clw`/`clen` the current line and its running
length. -/
def buildLinesGo (maxChars : ℕ) :
    Option WordTok → List WordTok → List WordTok → ℕ → List SubLine → List SubLine
  | _, [], clw, _, acc => if clw = [] then acc else acc ++ [⟨clw, lineTextOf clw⟩]
  | prev?, w :: rest, clw, clen, acc =>
    let word := pyStrip w.word.data
    if word = [] then buildLinesGo maxChars (some w) rest clw clen acc
    else
      let prevHasComma := match prev? with
        | some p =>
          !clw.isEmpty &&
            (let pt := pyStrip p.word.data
             !pt.isEmpty && (pt.getLastD ' ' = ',' || pt.getLastD ' ' = ';'))
        | none => false
      let hasPause := match prev? with
        | some p => !clw.isEmpty && decide (w.start - p.stop ≥ 4/5)
        | none => false
      let wordLen := word.length + 1
      if (prevHasComma || hasPause) && !clw.isEmpty then
        buildLinesGo maxChars (some w) rest [w] wordLen (acc ++ [⟨clw, lineTextOf clw⟩])
      else if decide (clen + wordLen > maxChars) && !clw.isEmpty then
        buildLinesGo maxChars (some w) rest [w] wordLen (acc ++ [⟨clw, lineTextOf clw⟩])
      else buildLinesGo maxChars (some w) rest (clw ++ [w]) (clen + wordLen) acc

/-- Fuel-driven chunking loop (structural recursion for kernel
reduction); `listChunks` supplies sufficient fuel. -/
def listChunksGo {α : Type} (n : ℕ) : ℕ → List α → List (List α)
  | _, [] => []
  | 0, _ :: _ => []
  | fuel + 1, x :: xs =>
    if n = 0 then [] else (x :: xs).take n :: listChunksGo n fuel ((x :: xs).drop n)

/-- `range(0, len(l), n)` slicing into chunks of `n` (the `max_lines`
grouping; `n = 0`, a `ValueError` in Python, yields `[]`). -/
def listChunks {α : Type} (n : ℕ) (l : List α) : List (List α) :=
  listChunksGo n l.length l

/-- Emit one cue per line group: text is the newline-join of the group's
line texts, start/end are the first word's start and last word's end,
indices continue from `base` (`len(segments) + 1`). -/
def segsFromLines (base : ℕ) : List (List SubLine) → List SRTSegment
  | [] => []
  | grp :: rest =>
    let segWords := (grp.map (·.lineWords)).flatten
    match segWords with
    | [] => segsFromLines base rest
    | w0 :: _ =>
      ⟨(base : ℤ) + 1, w0.start, (segWords.getLastD w0).stop,
        String.mk (joinWith '\n' (grp.map (·.lineText)))⟩ :: segsFromLines (base + 1) rest

/-- `create_segment_from_words(words_buffer)`: build lines, then group
them into cues of at most `maxLines` lines. -/
def create_segment_from_words (maxChars maxLines base : ℕ) (buffer : List WordTok) :
    List SRTSegment :=
  if buffer = [] then []
  else segsFromLines base (listChunks maxLines (buildLinesGo maxChars none buffer [] 0 []))

/-- The main token walk of `group_words_into_subtitles`: `prev?` is the
raw previous token (`words[i-1]`), `cw` the accumulating cue buffer,
`cs?` the pending cue start.  A long pause (≥ 1.5 s) flushes the buffer
without keeping the current token (as the source does); an over-long cue
flushes only at trailing punctuation `.!?,:;`; trailing `.!?:` always
flushes; a marker-initial token overrides every break. -/
def groupLoop (maxChars maxLines : ℕ) (maxDur : ℚ) :
    Option WordTok → List WordTok → List WordTok → Option ℚ → List SRTSegment →
    List SRTSegment
  | _, [], cw, _, segs => segs ++ create_segment_from_words maxChars maxLines segs.length cw
  | prev?, w :: rest, cw, cs?, segs =>
    let word := pyStrip w.word.data
    if word = [] then groupLoop maxChars maxLines maxDur (some w) rest cw cs? segs
    else
      let force := startsMarker word
      let hasLongPause := match prev? with
        | some p => !cw.isEmpty && decide (w.start - p.stop ≥ 3/2)
        | none => false
      let cs := cs?.getD w.start
      let dur := w.stop - cs
      if hasLongPause && !force then
        groupLoop maxChars maxLines maxDur (some w) rest [] none
          (segs ++ create_segment_from_words maxChars maxLines segs.length cw)
      else if decide (dur > maxDur) && !cw.isEmpty && !force then
        if ['.', '!', '?', ',', ':', ';'].contains (word.getLastD ' ') then
          groupLoop maxChars maxLines maxDur (some w) rest [] none
            (segs ++ create_segment_from_words maxChars maxLines segs.length (cw ++ [w]))
        else groupLoop maxChars maxLines maxDur (some w) rest (cw ++ [w]) (some cs) segs
      else if ['.', '!', '?', ':'].contains (word.getLastD ' ') && !cw.isEmpty && !force then
        groupLoop maxChars maxLines maxDur (some w) rest [] none
          (segs ++ create_segment_from_words maxChars maxLines segs.length (cw ++ [w]))
      else groupLoop maxChars maxLines maxDur (some w) rest (cw ++ [w]) (some cs) segs

/-- `group_words_into_subtitles(words, max_chars_per_line=42, max_lines=2,
max_duration=7.0)`: token repair, then the main walk. -/
def group_words_into_subtitles (words : List WordTok) (max_chars_per_line : ℕ := 42)
    (max_lines : ℕ := 2) (max_duration : ℚ := 7) : List SRTSegment :=
  if words = [] then []
  else groupLoop max_chars_per_line max_lines max_duration none (mergeSplitTokens words)
    [] none []

/-! ## Speaker Re-segmenter (`apply_speaker_segmentation`) -/

/-- One diarization interval (a Python dict with keys `start`, `end`,
`speaker`; `end` is a Lean keyword, so the field is named `stop`). -/
structure SpeakerInterval where
  start : ℚ
  stop : ℚ
  speaker : String
deriving DecidableEq, Repr

/-- The scan of `find_speaker_changes`: skip intervals disjoint from the
cue's range, record `(max(seg.start, range.start), speaker)` whenever the
speaker differs from the previously recorded one (`None` initially). -/
def findChangesGo (start_time end_time : ℚ) (current : Option String) :
    List SpeakerInterval → List (ℚ × String)
  | [] => []
  | seg :: rest =>
    if seg.stop < start_time || seg.start > end_time then
      findChangesGo start_time end_time current rest
    else if current ≠ some seg.speaker then
      (max seg.start start_time, seg.speaker) ::
        findChangesGo start_time end_time (some seg.speaker) rest
    else findChangesGo start_time end_time current rest

/-- `find_speaker_changes(start_time, end_time)` over the diarization
list. -/
def find_speaker_changes (speaker_segments : List SpeakerInterval)
    (start_time end_time : ℚ) : List (ℚ × String) :=
  findChangesGo start_time end_time none speaker_segments

/-- The word-allocation loop of the split branch: each change takes
`max(1, int(sub_duration / duration_per_word))` words (Python `int` =
truncation toward zero) from the remaining words; an allocation finding
no words left creates no cue and does not advance.  Returns the created
sub-cues and the unconsumed words. -/
def allocLoop (parentEnd dpw : ℚ) :
    List (ℚ × String) → List (List Char) → List SRTSegment × List (List Char)
  | [], rem => ([], rem)
  | (t, _) :: rest, rem =>
    let nextT := match rest with | [] => parentEnd | (t2, _) :: _ => t2
    let num := (max 1 (pyTrunc ((nextT - t) / dpw))).toNat
    let segWords := rem.take num
    if segWords = [] then allocLoop parentEnd dpw rest rem
    else
      let out := allocLoop parentEnd dpw rest (rem.drop num)
      (⟨0, t, min nextT parentEnd, String.mk (joinWith ' ' segWords)⟩ :: out.1, out.2)

/-- Append the leftover words to the last created sub-cue (`' ' +
' '.join(words[word_index:])`).  The source appends to the globally last
cue; whenever a leftover exists the parent created at least one sub-cue,
so that cue is this parent's last one. -/
def appendLeftover (subs : List SRTSegment) (rem : List (List Char)) : List SRTSegment :=
  if rem = [] then subs
  else
    match subs.getLast? with
    | none => subs
    | some lastSeg =>
      subs.dropLast ++
        [{ lastSeg with text := lastSeg.text ++ String.mk (' ' :: joinWith ' ' rem) }]

/-- The per-cue body of `apply_speaker_segmentation`'s loop: cues with at
most one recorded speaker change (or no words) pass through; otherwise
the words are redistributed time-proportionally.  (In Python a
zero-duration parent reaching the division would raise
`ZeroDivisionError`; rational division by zero makes the model total —
no claim exercises that input.) -/
def processSpeakerSegment (speaker_segments : List SpeakerInterval)
    (segment : SRTSegment) : List SRTSegment :=
  let changes := find_speaker_changes speaker_segments segment.start_time segment.end_time
  if changes.length ≤ 1 then [segment]
  else
    let words := splitWS (segment.text.data.map (fun c => if c = '\n' then ' ' else c))
    if words = [] then [segment]
    else
      let dpw := (segment.end_time - segment.start_time) / (words.length : ℚ)
      let out := allocLoop segment.end_time dpw changes words
      appendLeftover out.1 out.2

/-- Re-index 1..N (the final loop of `apply_speaker_segmentation`). -/
def reindexFrom : ℕ → List SRTSegment → List SRTSegment
  | _, [] => []
  | i, s :: rest => { s with index := (i : ℤ) + 1 } :: reindexFrom (i + 1) rest

/-- `apply_speaker_segmentation(segments, speaker_segments)`. -/
def apply_speaker_segmentation (segments : List SRTSegment)
    (speaker_segments : List SpeakerInterval) : List SRTSegment :=
  if speaker_segments = [] then segments
  else reindexFrom 0 ((segments.map (processSpeakerSegment speaker_segments)).flatten)

/-- `merge_srt_segments(srt_chunks)`: parse each chunk, apply its offset,
sort by start (Python's stable sort), resolve overlaps, serialize. -/
def merge_srt_segments (srt_chunks : List (String × ℚ)) : String :=
  let all_segments := srt_chunks.flatMap (fun chunk =>
    (parse_srt chunk.1).map (fun s =>
      ⟨0, s.start_time + chunk.2, s.end_time + chunk.2, s.text⟩))
  let sorted := all_segments.mergeSort (fun a b => decide (a.start_time ≤ b.start_time))
  serializeSegments (remove_overlapping_segments sorted)

/-- The pipeline composition the application applies to one recording's
cue sequence (`app.py`): the Chunk Merger, serialization, then the
Hallucination Filter, read back into cues. -/
def mergerThenFilter (segs : List SRTSegment) : List SRTSegment :=
  parse_srt (clean_hallucinations (serializeSegments (remove_overlapping_segments segs)))

/-! ## Claim theorems -/

unseal Rat.add Rat.sub Rat.mul Rat.inv in
/-- C1, counterexample.  On the design document's own scenario —
`p = {10.0–13.0, "and then we saw the"}`, `c = {12.8–16.0, "we saw the
results"}` — the Merger does merge (the boundary-word check passes), but
it keeps the *longer* of the two texts, `"and then we saw the"`
(19 characters versus 18), not the claimed concatenation
`"and then we saw the results"`. -/
theorem c1_counterexample :
    remove_overlapping_segments
        [⟨1, 10, 13, "and then we saw the"⟩, ⟨2, 64/5, 16, "we saw the results"⟩] =
      [⟨1, 10, 16, "and then we saw the"⟩] ∧
    "and then we saw the" ≠ "and then we saw the results" := by
  decide

lemma mergeStep_concat (init : List SRTSegment) (p c : SRTSegment) :
    mergeStep (init ++ [p]) c =
      if c.start_time < p.end_time then
        if (decide (calculate_jaccard_trigram p.text c.text > 1/2) ||
            hasBoundaryOverlap p.text c.text) = true then
          init ++ [{ p with
              end_time := max p.end_time c.end_time,
              text := if c.text.length > p.text.length then c.text else p.text }]
        else (init ++ [p]) ++ [{ c with start_time := p.end_time + 1/10 }]
      else (init ++ [p]) ++ [c] := by
  simp only [mergeStep, List.getLast?_concat, List.dropLast_concat]

unseal Rat.add Rat.sub Rat.mul Rat.inv in
/-- C1, amended.  For a valid overlapping pair, the Merger merges exactly
when the trigram-Jaccard similarity exceeds 0.5 or the boundary-word
check passes (both word lists at least 2 words long after
normalization, and at least 2 of the first `min(5, ·)` current words
occurring among the last `min(5, ·)` previous words); a merge keeps the
longer text (ties to the previous) and extends the end, otherwise the
candidate is accepted with its start nudged to `p.end + 0.1`.  On the
scenario of the claim the surviving text is `"and then we saw the"`. -/
theorem c1_merge_rule :
    (∀ p c : SRTSegment, p.start_time < p.end_time → c.start_time < c.end_time →
      c.start_time < p.end_time →
      remove_overlapping_segments [p, c] =
        if calculate_jaccard_trigram p.text c.text > 1/2 ∨
            hasBoundaryOverlap p.text c.text = true then
          [{ p with
              end_time := max p.end_time c.end_time,
              text := if c.text.length > p.text.length then c.text else p.text }]
        else [p, { c with start_time := p.end_time + 1/10 }]) ∧
    remove_overlapping_segments
        [⟨1, 10, 13, "and then we saw the"⟩, ⟨2, 64/5, 16, "we saw the results"⟩] =
      [⟨1, 10, 16, "and then we saw the"⟩] := by
  constructor
  · intro p c hp hc hov
    have hfil : List.filter (fun s => decide (s.start_time < s.end_time)) [p, c] = [p, c] := by
      simp [List.filter, hp, hc]
    have h1 : remove_overlapping_segments [p, c] = mergeStep ([] ++ [p]) c := by
      unfold remove_overlapping_segments
      rw [hfil]
      rfl
    rw [h1, mergeStep_concat, if_pos hov]
    by_cases hcond : calculate_jaccard_trigram p.text c.text > 1/2 ∨
        hasBoundaryOverlap p.text c.text = true
    · have hb : (decide (calculate_jaccard_trigram p.text c.text > 1/2) ||
          hasBoundaryOverlap p.text c.text) = true := by
        simp only [Bool.or_eq_true, decide_eq_true_eq]
        exact hcond
      rw [if_pos hb, if_pos hcond, List.nil_append]
    · have hb : ¬ ((decide (calculate_jaccard_trigram p.text c.text > 1/2) ||
          hasBoundaryOverlap p.text c.text) = true) := by
        simp only [Bool.or_eq_true, decide_eq_true_eq]
        exact hcond
      rw [if_neg hb, if_neg hcond, List.nil_append]
      rfl
  · decide

unseal Rat.add Rat.sub Rat.mul Rat.inv in
/-- C1 witness: the amended rule applied to the scenario pair. -/
theorem c1_merge_rule_witness :
    (10 : ℚ) < 13 ∧ (64/5 : ℚ) < 16 ∧ (64/5 : ℚ) < 13 ∧
    remove_overlapping_segments
        [⟨1, 10, 13, "and then we saw the"⟩, ⟨2, 64/5, 16, "we saw the results"⟩] =
      (if calculate_jaccard_trigram "and then we saw the" "we saw the results" > 1/2 ∨
          hasBoundaryOverlap "and then we saw the" "we saw the results" = true then
        [⟨1, 10, max 13 16,
          if ("we saw the results" : String).length > ("and then we saw the" : String).length
          then "we saw the results" else "and then we saw the"⟩]
      else [⟨1, 10, 13, "and then we saw the"⟩, ⟨2, 13 + 1/10, 16, "we saw the results"⟩]) :=
  ⟨by decide, by decide, by decide,
    (c1_merge_rule.1 ⟨1, 10, 13, "and then we saw the"⟩ ⟨2, 64/5, 16, "we saw the results"⟩
      (by decide) (by decide) (by decide))⟩

lemma mergeStep_chain (acc : List SRTSegment) (c : SRTSegment) (hne : acc ≠ [])
    (hch : List.Chain' (fun a b => a.end_time ≤ b.start_time) acc) :
    List.Chain' (fun a b => a.end_time ≤ b.start_time) (mergeStep acc c) ∧
      mergeStep acc c ≠ [] := by
  rcases List.eq_nil_or_concat acc with rfl | ⟨init, p, rfl⟩
  · exact absurd rfl hne
  rw [List.concat_eq_append] at hch ⊢
  rw [mergeStep_concat]
  by_cases hov : c.start_time < p.end_time
  · rw [if_pos hov]
    by_cases hb : (decide (calculate_jaccard_trigram p.text c.text > 1/2) ||
        hasBoundaryOverlap p.text c.text) = true
    · rw [if_pos hb]
      constructor
      · rw [List.chain'_append] at hch ⊢
        refine ⟨hch.1, List.chain'_singleton _, ?_⟩
        intro x hx y hy
        simp only [List.head?_cons, Option.mem_def, Option.some.injEq] at hy
        subst hy
        exact hch.2.2 x hx p (by simp)
      · simp
    · rw [if_neg hb]
      constructor
      · rw [List.chain'_append]
        refine ⟨hch, List.chain'_singleton _, ?_⟩
        intro x hx y hy
        rw [List.getLast?_concat] at hx
        simp only [Option.mem_def, Option.some.injEq] at hx
        simp only [List.head?_cons, Option.mem_def, Option.some.injEq] at hy
        subst hx; subst hy
        show p.end_time ≤ p.end_time + 1/10
        linarith
      · simp
  · rw [if_neg hov]
    constructor
    · rw [List.chain'_append]
      refine ⟨hch, List.chain'_singleton _, ?_⟩
      intro x hx y hy
      rw [List.getLast?_concat] at hx
      simp only [Option.mem_def, Option.some.injEq] at hx
      simp only [List.head?_cons, Option.mem_def, Option.some.injEq] at hy
      subst hx; subst hy
      exact le_of_not_lt hov
    · simp

lemma foldl_mergeStep_chain (rest : List SRTSegment) (acc : List SRTSegment)
    (hne : acc ≠ [])
    (hch : List.Chain' (fun a b => a.end_time ≤ b.start_time) acc) :
    List.Chain' (fun a b => a.end_time ≤ b.start_time) (List.foldl mergeStep acc rest) := by
  induction rest generalizing acc with
  | nil => exact hch
  | cons c rest ih =>
    have h := mergeStep_chain acc c hne hch
    exact ih (mergeStep acc c) h.2 h.1

unseal Rat.add Rat.sub Rat.mul Rat.inv in
/-- C2, counterexample.  Two sorted valid inputs on which, after the
Merger and then the Hallucination Filter, the claimed invariant fails:
with a dropped stock-phrase cue between two dissimilar cues the output
is `[{0–10}, {3–4}]` (adjacent cues overlap, `10 > 3`); with `"kangaroo"`
instead of `"Merci."` the output keeps a nudged cue starting at `10.1`
ahead of one starting at `3` (not sorted by start). -/
theorem c2_counterexample :
    (mergerThenFilter
        [⟨1, 0, 10, "red green blue yellow"⟩, ⟨2, 1, 2, "Merci."⟩,
          ⟨3, 3, 4, "zebra lion puma"⟩] =
        [⟨1, 0, 10, "red green blue yellow"⟩, ⟨2, 3, 4, "zebra lion puma"⟩] ∧
      ¬ ((10 : ℚ) ≤ 3)) ∧
    (mergerThenFilter
        [⟨1, 0, 10, "red green blue yellow"⟩, ⟨2, 1, 2, "kangaroo"⟩,
          ⟨3, 3, 4, "zebra lion puma"⟩] =
        [⟨1, 0, 10, "red green blue yellow"⟩, ⟨2, 101/10, 2, "kangaroo"⟩,
          ⟨3, 3, 4, "zebra lion puma"⟩] ∧
      ¬ ((101 : ℚ)/10 ≤ 3)) := by
  decide

/-- C2, amended.  The Merger alone does guarantee, for every input cue
sequence, that adjacent output cues satisfy
`cue[i].end_time ≤ cue[i+1].start_time`; sortedness by start, and
preservation of the invariant by the Hallucination Filter, do not hold
(see the counterexample). -/
theorem c2_merger_adjacent_nonoverlap (segs : List SRTSegment) :
    List.Chain' (fun a b => a.end_time ≤ b.start_time)
      (remove_overlapping_segments segs) := by
  unfold remove_overlapping_segments
  cases hv : List.filter (fun s => decide (s.start_time < s.end_time)) segs with
  | nil => exact List.chain'_nil
  | cons first rest =>
    exact foldl_mergeStep_chain rest [first] (by simp) (List.chain'_singleton _)

unseal Rat.add Rat.sub Rat.mul Rat.inv in
/-- C3: the Merger's nudge step emits an invalid cue.  On the valid
sorted input `[{0–10, "red green blue yellow"}, {1–2, "kangaroo"}]`
(dissimilar, overlapping), the second cue is accepted with its start
nudged to `10.1` while its end stays `2.0`, so the Merger's own output
contains a cue with `start >= end` — contradicting both the claim and
the function's STEP 1, which exists to remove such cues. -/
theorem c3_nudge_inverts_cue :
    remove_overlapping_segments
        [⟨1, 0, 10, "red green blue yellow"⟩, ⟨2, 1, 2, "kangaroo"⟩] =
      [⟨1, 0, 10, "red green blue yellow"⟩, ⟨2, 101/10, 2, "kangaroo"⟩] ∧
    ¬ ((101 : ℚ)/10 < 2) := by
  decide

unseal Rat.add Rat.sub Rat.mul Rat.inv in
/-- C7, counterexample.  On the design document's scenario — cue
`{0.0–4.0, "hello there friend"}` with speaker intervals `{0.0–2.0, A}`
and `{2.0–4.0, B}` — the Re-segmenter does not produce
`{0.0–2.0, "hello there"}` and `{2.0–4.0, "friend"}`: the allocation
truncates `2.0 / (4/3) = 1.5` to `1` word instead of rounding it to 2. -/
theorem c7_counterexample :
    (apply_speaker_segmentation [⟨1, 0, 4, "hello there friend"⟩]
        [⟨0, 2, "A"⟩, ⟨2, 4, "B"⟩]).map (fun s => (s.start_time, s.end_time, s.text)) ≠
      [((0 : ℚ), (2 : ℚ), "hello there"), ((2 : ℚ), (4 : ℚ), "friend")] := by
  decide

unseal Rat.add Rat.sub Rat.mul Rat.inv in
/-- C7, amended.  The split allocates
`max(1, int(sub_interval_duration / duration_per_word))` words per
speaker sub-interval — `int()` truncates toward zero, it does not
round — with leftovers appended to the last sub-cue; on the scenario
this yields `{0.0–2.0, "hello"}` and `{2.0–4.0, "there friend"}`
(`int(1.5) = 1`, so speaker A receives one word). -/
theorem c7_speaker_split_floor :
    apply_speaker_segmentation [⟨1, 0, 4, "hello there friend"⟩]
        [⟨0, 2, "A"⟩, ⟨2, 4, "B"⟩] =
      [⟨1, 0, 2, "hello"⟩, ⟨2, 2, 4, "there friend"⟩] ∧
    (max 1 (pyTrunc ((2 - 0 : ℚ) / (4 / 3)))).toNat = 1 := by
  decide

unseal Rat.add Rat.sub Rat.mul Rat.inv in
/-- C6: in the Hallucination Filter a cue is dropped entirely — the
output list is returned unchanged, no neighbour's time or text touched —
exactly when its stripped text matches a spurious pattern AND has at
most 6 words AND fewer than 100 characters; any other cue is either
appended or fused into the previous cue (extending its end to the max).
The scenario cue `{5.0–5.4, "Merci."}` is dropped even standalone, and a
pattern-matching cue with 7 words, or with 100+ characters, is kept. -/
theorem c6_stock_phrase_drop :
    (∀ (out : List SRTSegment) (seg : SRTSegment), creditDropped seg = true →
      cleanStep 3 (9/10) out seg = out) ∧
    (∀ (out : List SRTSegment) (seg : SRTSegment), creditDropped seg = false →
      cleanStep 3 (9/10) out seg = out ++ [seg] ∨
      ∃ (pre : List SRTSegment) (l : SRTSegment) (t' : String), out = pre ++ [l] ∧
        cleanStep 3 (9/10) out seg =
          pre ++ [{ l with end_time := max l.end_time seg.end_time, text := t' }]) ∧
    cleanLoop 3 (9/10) [⟨1, 5, 27/5, "Merci."⟩] = [] ∧
    (creditDropped ⟨1, 0, 1,
        "production production production production production production production"⟩ =
          false ∧
      cleanLoop 3 (9/10) [⟨1, 0, 1,
        "production production production production production production production"⟩] =
        [⟨1, 0, 1,
          "production production production production production production production"⟩]) := by
  refine ⟨?_, ?_, by decide, by decide, by decide⟩
  · intro out seg h
    unfold creditDropped at h
    by_cases ht : pyStrip seg.text.data = []
    · rw [ht] at h
      exact absurd h (by decide)
    · simp only [cleanStep]
      rw [if_neg ht, if_pos h]
  · intro out seg h
    unfold creditDropped at h
    by_cases ht : pyStrip seg.text.data = []
    · left
      simp only [cleanStep]
      rw [if_pos ht]
    · simp only [cleanStep]
      rw [if_neg ht, if_neg (by rw [h]; exact Bool.noConfusion)]
      rcases List.eq_nil_or_concat out with rfl | ⟨pre, l, rfl⟩
      · left; rfl
      · rw [List.concat_eq_append]
        simp only [List.getLast?_concat]
        by_cases h2 : (decide (seg.start_time < l.end_time) &&
            decide (calculate_jaccard_trigram (String.mk (pyStrip seg.text.data)) l.text ≥
              3/5)) = true
        · rw [if_pos h2]
          by_cases h3 : (String.mk (pyStrip seg.text.data)).length > l.text.length
          · rw [if_pos h3, List.dropLast_concat]
            exact Or.inr ⟨pre, l, String.mk (pyStrip seg.text.data), rfl, rfl⟩
          · rw [if_neg h3, List.dropLast_concat]
            exact Or.inr ⟨pre, l, l.text, rfl, rfl⟩
        · rw [if_neg h2]
          by_cases h4 : (decide (seg.start_time - l.end_time ≤ 3) &&
              decide (calculate_jaccard_trigram (String.mk (pyStrip seg.text.data)) l.text ≥
                9/10)) = true
          · rw [if_pos h4, List.dropLast_concat]
            exact Or.inr ⟨pre, l, l.text, rfl, rfl⟩
          · rw [if_neg h4]
            exact Or.inl rfl

unseal Rat.add Rat.sub Rat.mul Rat.inv in
/-- C6 witness: the drop rule applied to the scenario cue
`{5.0–5.4, "Merci."}` against a nonempty accepted list. -/
theorem c6_stock_phrase_drop_witness :
    creditDropped ⟨1, 5, 27/5, "Merci."⟩ = true ∧
    cleanStep 3 (9/10) [⟨1, 0, 1, "unrelated words"⟩] ⟨1, 5, 27/5, "Merci."⟩ =
      [⟨1, 0, 1, "unrelated words"⟩] :=
  ⟨by decide, c6_stock_phrase_drop.1 [⟨1, 0, 1, "unrelated words"⟩] ⟨1, 5, 27/5, "Merci."⟩
    (by decide)⟩

/-! ## Word conservation under speaker splitting (C8) -/

/-- A well-formed word piece as produced by Python `str.split()`:
nonempty and whitespace-free. -/
def WordPiece (p : List Char) : Prop := p ≠ [] ∧ ∀ c ∈ p, pyWs c = false

lemma splitWSGo_wf (l : List Char) : ∀ (cur : List Char), (∀ c ∈ cur, pyWs c = false) →
    ∀ p ∈ splitWSGo cur l, WordPiece p := by
  induction l with
  | nil =>
    intro cur hcur p hp
    simp only [splitWSGo] at hp
    split at hp
    · simp at hp
    · rename_i hcurne
      simp only [List.mem_singleton] at hp
      subst hp
      refine ⟨by simpa using hcurne, ?_⟩
      intro c hc
      exact hcur c (List.mem_reverse.mp hc)
  | cons c rest ih =>
    intro cur hcur p hp
    simp only [splitWSGo] at hp
    by_cases hws : pyWs c
    · rw [if_pos hws] at hp
      split at hp
      · exact ih [] (by simp) p hp
      · rename_i hcurne
        rcases List.mem_cons.mp hp with rfl | hp
        · refine ⟨by simpa using hcurne, ?_⟩
          intro d hd
          exact hcur d (List.mem_reverse.mp hd)
        · exact ih [] (by simp) p hp
    · rw [if_neg hws] at hp
      refine ih (c :: cur) ?_ p hp
      intro d hd
      rcases List.mem_cons.mp hd with rfl | hd
      · exact Bool.eq_false_iff.mpr hws
      · exact hcur d hd

lemma splitWS_wf (l : List Char) : ∀ p ∈ splitWS l, WordPiece p :=
  splitWSGo_wf l [] (by simp)

lemma splitWSGo_space_append (a : List Char) :
    ∀ (cur b : List Char), splitWSGo cur (a ++ ' ' :: b) = splitWSGo cur a ++ splitWSGo [] b := by
  induction a with
  | nil =>
    intro cur b
    simp only [List.nil_append, splitWSGo]
    rw [if_pos (by decide)]
    split
    · simp
    · simp
  | cons c rest ih =>
    intro cur b
    simp only [List.cons_append, splitWSGo, List.append_eq]
    by_cases hws : pyWs c
    · rw [if_pos hws, if_pos hws]
      split
      · exact ih [] b
      · rw [ih [] b]
        simp
    · rw [if_neg hws, if_neg hws]
      exact ih (c :: cur) b

lemma splitWSGo_word (w : List Char) : ∀ (cur : List Char), (∀ c ∈ w, pyWs c = false) →
    (cur ≠ [] ∨ w ≠ []) → splitWSGo cur w = [cur.reverse ++ w] := by
  induction w with
  | nil =>
    intro cur _ hne
    have : cur ≠ [] := by
      rcases hne with h | h
      · exact h
      · exact absurd rfl h
    simp [splitWSGo, this]
  | cons c rest ih =>
    intro cur hwf _
    have hc : pyWs c = false := hwf c (by simp)
    simp only [splitWSGo, hc, Bool.false_eq_true, if_false]
    rw [ih (c :: cur) (fun d hd => hwf d (List.mem_cons_of_mem c hd)) (Or.inl (by simp))]
    simp

lemma splitWS_join (pieces : List (List Char)) (h : ∀ p ∈ pieces, WordPiece p) :
    splitWS (joinWith ' ' pieces) = pieces := by
  induction pieces with
  | nil => rfl
  | cons p rest ih =>
    rcases rest with _ | ⟨q, rest'⟩
    · have hp := h p (by simp)
      show splitWSGo [] p = [p]
      rw [splitWSGo_word p [] hp.2 (Or.inr hp.1)]
      simp
    · show splitWSGo [] (p ++ ' ' :: joinWith ' ' (q :: rest')) = _
      rw [splitWSGo_space_append]
      have hp := h p (by simp)
      rw [splitWSGo_word p [] hp.2 (Or.inr hp.1)]
      have := ih (fun r hr => h r (List.mem_cons_of_mem p hr))
      simp only [splitWS] at this
      rw [this]
      simp

lemma splitWSGo_map_nl (l : List Char) : ∀ (cur : List Char),
    splitWSGo cur (l.map (fun c => if c = '\n' then ' ' else c)) = splitWSGo cur l := by
  induction l with
  | nil => intro cur; rfl
  | cons c rest ih =>
    intro cur
    simp only [List.map_cons, splitWSGo]
    have hws : pyWs (if c = '\n' then ' ' else c) = pyWs c := by
      by_cases hc : c = '\n'
      · subst hc; decide
      · rw [if_neg hc]
    by_cases h : pyWs c
    · rw [hws, if_pos h, if_pos h]
      split
      · exact ih []
      · rw [ih []]
    · have hcn : ¬ c = '\n' := by
        intro hc; subst hc; exact h (by decide)
      rw [hws, if_neg h, if_neg h, if_neg hcn]
      exact ih (c :: cur)

/-- The `next_change_time` of the allocation loop. -/
def allocNext (pe : ℚ) (rest : List (ℚ × String)) : ℚ :=
  match rest with | [] => pe | (t2, _) :: _ => t2

/-- The `num_words` of the allocation loop. -/
def allocNum (pe dpw t : ℚ) (rest : List (ℚ × String)) : ℕ :=
  (max 1 (pyTrunc ((allocNext pe rest - t) / dpw))).toNat

lemma allocNum_pos (pe dpw t : ℚ) (rest : List (ℚ × String)) : 1 ≤ allocNum pe dpw t rest := by
  unfold allocNum
  have h : (1 : ℤ) ≤ max 1 (pyTrunc ((allocNext pe rest - t) / dpw)) := le_max_left _ _
  omega

lemma allocLoop_cons (pe dpw t : ℚ) (spk : String) (rest : List (ℚ × String))
    (rem : List (List Char)) :
    allocLoop pe dpw ((t, spk) :: rest) rem =
      if rem.take (allocNum pe dpw t rest) = [] then allocLoop pe dpw rest rem
      else (⟨0, t, min (allocNext pe rest) pe,
              String.mk (joinWith ' ' (rem.take (allocNum pe dpw t rest)))⟩ ::
              (allocLoop pe dpw rest (rem.drop (allocNum pe dpw t rest))).1,
            (allocLoop pe dpw rest (rem.drop (allocNum pe dpw t rest))).2) := rfl

lemma allocLoop_words (pe dpw : ℚ) (changes : List (ℚ × String)) :
    ∀ (rem : List (List Char)), (∀ p ∈ rem, WordPiece p) →
    ((allocLoop pe dpw changes rem).1.map (fun s => splitWS s.text.data)).flatten ++
      (allocLoop pe dpw changes rem).2 = rem := by
  induction changes with
  | nil => intro rem _; rfl
  | cons ch rest ih =>
    intro rem hrem
    obtain ⟨t, spk⟩ := ch
    by_cases h : rem.take (allocNum pe dpw t rest) = []
    · rw [allocLoop_cons, if_pos h]
      exact ih rem hrem
    · rw [allocLoop_cons, if_neg h]
      simp only [List.map_cons, List.flatten_cons]
      have hwords : splitWS (String.mk (joinWith ' '
          (rem.take (allocNum pe dpw t rest)))).data = rem.take (allocNum pe dpw t rest) := by
        exact splitWS_join _ (fun p hp => hrem p (List.take_subset _ _ hp))
      rw [hwords, List.append_assoc,
        ih (rem.drop (allocNum pe dpw t rest)) (fun p hp => hrem p (List.drop_subset _ _ hp))]
      exact List.take_append_drop _ rem

lemma allocLoop_ne_nil (pe dpw : ℚ) (changes : List (ℚ × String)) (rem : List (List Char))
    (hch : changes ≠ []) (hrem : rem ≠ []) : (allocLoop pe dpw changes rem).1 ≠ [] := by
  rcases changes with _ | ⟨⟨t, spk⟩, rest⟩
  · exact absurd rfl hch
  have htake : rem.take (allocNum pe dpw t rest) ≠ [] := by
    have := allocNum_pos pe dpw t rest
    rcases rem with _ | ⟨p, ps⟩
    · exact absurd rfl hrem
    · rcases Nat.exists_eq_add_of_le this with ⟨k, hk⟩
      rw [hk]
      simp [List.take_succ_cons, Nat.add_comm]
  rw [allocLoop_cons, if_neg htake]
  simp

lemma appendLeftover_words (subs : List SRTSegment) (rem : List (List Char))
    (hrem : ∀ p ∈ rem, WordPiece p) (hns : subs ≠ [] ∨ rem = []) :
    ((appendLeftover subs rem).map (fun s => splitWS s.text.data)).flatten =
      (subs.map (fun s => splitWS s.text.data)).flatten ++ rem := by
  by_cases h : rem = []
  · subst h
    simp [appendLeftover]
  · have hsubs : subs ≠ [] := by
      rcases hns with hs | hr
      · exact hs
      · exact absurd hr h
    rcases List.eq_nil_or_concat subs with rfl | ⟨pre, lastSeg, rfl⟩
    · exact absurd rfl hsubs
    rw [List.concat_eq_append]
    unfold appendLeftover
    rw [if_neg h]
    simp only [List.getLast?_concat, List.dropLast_concat]
    simp only [List.map_append, List.flatten_append, List.map_cons, List.flatten_cons,
      List.map_nil, List.flatten_nil, List.append_nil]
    have hdata : (lastSeg.text ++ String.mk (' ' :: joinWith ' ' rem)).data =
        lastSeg.text.data ++ ' ' :: joinWith ' ' rem := by
      rw [String.data_append]
    rw [hdata]
    show _ ++ splitWSGo [] (lastSeg.text.data ++ ' ' :: joinWith ' ' rem) = _
    rw [splitWSGo_space_append]
    have : splitWSGo [] (joinWith ' ' rem) = rem := splitWS_join rem hrem
    rw [this, List.append_assoc]
    rfl

/-- C8: for every cue the Speaker Re-segmenter actually splits (at least
2 recorded speaker changes inside it), the concatenation, in order, of
the produced sub-cues' word lists equals the parent cue's word list —
no word lost, none duplicated. -/
theorem c8_word_conservation (seg : SRTSegment) (sp : List SpeakerInterval)
    (h : 2 ≤ (find_speaker_changes sp seg.start_time seg.end_time).length) :
    ((processSpeakerSegment sp seg).map (fun s => splitWS s.text.data)).flatten =
      splitWS seg.text.data := by
  unfold processSpeakerSegment
  rw [if_neg (by omega)]
  have hmap : splitWS (seg.text.data.map (fun c => if c = '\n' then ' ' else c)) =
      splitWS seg.text.data := splitWSGo_map_nl seg.text.data []
  by_cases hw : splitWS (seg.text.data.map (fun c => if c = '\n' then ' ' else c)) = []
  · rw [if_pos hw]
    simp only [List.map_cons, List.flatten_cons, List.map_nil, List.flatten_nil,
      List.append_nil]
  · rw [if_neg hw]
    have hch : find_speaker_changes sp seg.start_time seg.end_time ≠ [] := by
      intro hc
      rw [hc] at h
      simp at h
    have hwf : ∀ p ∈ splitWS (seg.text.data.map (fun c => if c = '\n' then ' ' else c)),
        WordPiece p := splitWS_wf _
    set dpw := (seg.end_time - seg.start_time) /
      ((splitWS (seg.text.data.map (fun c => if c = '\n' then ' ' else c))).length : ℚ) with hdpw
    set words := splitWS (seg.text.data.map (fun c => if c = '\n' then ' ' else c)) with hwords
    set out := allocLoop seg.end_time dpw
      (find_speaker_changes sp seg.start_time seg.end_time) words with hout
    have hcons := allocLoop_words seg.end_time dpw
      (find_speaker_changes sp seg.start_time seg.end_time) words hwf
    have hrem2 : ∀ p ∈ out.2, WordPiece p := by
      intro p hp
      apply hwf
      rw [← hcons]
      exact List.mem_append_right _ hp
    have hne : out.1 ≠ [] ∨ out.2 = [] := Or.inl (allocLoop_ne_nil _ _ _ _ hch hw)
    rw [appendLeftover_words out.1 out.2 hrem2 hne, hcons]
    exact hmap

/-- C8 witness: word conservation on the split scenario cue. -/
theorem c8_word_conservation_witness :
    2 ≤ (find_speaker_changes [⟨0, 2, "A"⟩, ⟨2, 4, "B"⟩] 0 4).length ∧
    ((processSpeakerSegment [⟨0, 2, "A"⟩, ⟨2, 4, "B"⟩]
        ⟨1, 0, 4, "hello there friend"⟩).map (fun s => splitWS s.text.data)).flatten =
      splitWS ("hello there friend" : String).data :=
  ⟨by decide, c8_word_conservation ⟨1, 0, 4, "hello there friend"⟩
    [⟨0, 2, "A"⟩, ⟨2, 4, "B"⟩] (by decide)⟩

/-! ## Structure of `strip`/`rstrip` (token-repair proofs, C9) -/

lemma dropWhile_pyWs_head (l : List Char) :
    ∀ c rest, l.dropWhile pyWs = c :: rest → pyWs c = false := by
  induction l with
  | nil => intro c rest h; simp at h
  | cons a as ih =>
    intro c rest h
    by_cases hw : pyWs a
    · rw [List.dropWhile_cons_of_pos hw] at h
      exact ih c rest h
    · rw [List.dropWhile_cons_of_neg hw] at h
      obtain ⟨rfl, _⟩ := List.cons.inj h
      exact Bool.eq_false_iff.mpr hw

lemma dropWhile_pyWs_getLast? (l : List Char) (h : l.dropWhile pyWs ≠ []) :
    (l.dropWhile pyWs).getLast? = l.getLast? := by
  induction l with
  | nil => simp at h
  | cons a as ih =>
    by_cases hw : pyWs a
    · rw [List.dropWhile_cons_of_pos hw] at h ⊢
      rcases as with _ | ⟨b, as'⟩
      · simp at h
      · rw [ih h, List.getLast?_cons_cons]
    · rw [List.dropWhile_cons_of_neg hw]

lemma pyRstrip_getLast_not_ws (l : List Char) (pre : List Char) (c : Char)
    (h : pyRstrip l = pre ++ [c]) : pyWs c = false := by
  unfold pyRstrip at h
  have h' : l.reverse.dropWhile pyWs = c :: pre.reverse := by
    have := congrArg List.reverse h
    rwa [List.reverse_reverse, List.reverse_append, List.reverse_singleton] at this
  exact dropWhile_pyWs_head l.reverse c pre.reverse h'

lemma pyStrip_getLast?_eq (l : List Char) (h : pyStrip l ≠ []) :
    (pyStrip l).getLast? = (pyRstrip l).getLast? :=
  dropWhile_pyWs_getLast? (pyRstrip l) h

lemma pyStrip_getLast_not_ws (l : List Char) (pre : List Char) (c : Char)
    (h : pyStrip l = pre ++ [c]) : pyWs c = false := by
  have hne : pyStrip l ≠ [] := by rw [h]; simp
  have h1 : (pyRstrip l).getLast? = some c := by
    rw [← pyStrip_getLast?_eq l hne, h, List.getLast?_concat]
  rcases List.eq_nil_or_concat (pyRstrip l) with he | ⟨pre', c', he⟩
  · rw [he] at h1; simp at h1
  · rw [List.concat_eq_append] at he
    rw [he, List.getLast?_concat] at h1
    have hcc : c' = c := by simpa using h1
    rw [hcc] at he
    exact pyRstrip_getLast_not_ws l pre' c he

lemma pyStrip_head_not_ws (l : List Char) (c : Char) (rest : List Char)
    (h : pyStrip l = c :: rest) : pyWs c = false :=
  dropWhile_pyWs_head (pyRstrip l) c rest h

lemma pyRstrip_append_of_getLast (z b : List Char) (pre : List Char) (c : Char)
    (hb : b = pre ++ [c]) (hc : pyWs c = false) : pyRstrip (z ++ b) = z ++ b := by
  subst hb
  unfold pyRstrip
  rw [show z ++ (pre ++ [c]) = (z ++ pre) ++ [c] by rw [List.append_assoc],
    List.reverse_append, List.reverse_singleton]
  rw [List.singleton_append, List.dropWhile_cons_of_neg (by simp [hc]),
    List.reverse_cons, List.reverse_reverse]

lemma pyLstrip_append (x y : List Char) (h : pyLstrip x ≠ []) :
    pyLstrip (x ++ y) = pyLstrip x ++ y := by
  induction x with
  | nil => exact absurd rfl h
  | cons a as ih =>
    by_cases hw : pyWs a
    · have h' : pyLstrip as ≠ [] := by
        unfold pyLstrip at h ⊢
        rwa [List.dropWhile_cons_of_pos hw] at h
      show List.dropWhile pyWs (a :: (as ++ y)) = List.dropWhile pyWs (a :: as) ++ y
      rw [List.dropWhile_cons_of_pos hw, List.dropWhile_cons_of_pos hw]
      exact ih h'
    · show List.dropWhile pyWs (a :: (as ++ y)) = List.dropWhile pyWs (a :: as) ++ y
      rw [List.dropWhile_cons_of_neg hw, List.dropWhile_cons_of_neg hw, List.cons_append]

/-- The crux of the token-repair invariant: appending a stripped
nonempty tail to an `rstrip`ped text strips to the original stripped
text followed by the tail. -/
lemma pyStrip_rstrip_append (a b : List Char) (ha : pyStrip a ≠ []) (hbne : pyStrip b ≠ []) :
    pyStrip (pyRstrip a ++ pyStrip b) = pyStrip a ++ pyStrip b := by
  rcases List.eq_nil_or_concat (pyStrip b) with he | ⟨pre, c, he⟩
  · exact absurd he hbne
  rw [List.concat_eq_append] at he
  have hc : pyWs c = false := pyStrip_getLast_not_ws b pre c he
  calc pyStrip (pyRstrip a ++ pyStrip b)
      = pyLstrip (pyRstrip (pyRstrip a ++ pyStrip b)) := rfl
    _ = pyLstrip (pyRstrip a ++ pyStrip b) := by
        rw [pyRstrip_append_of_getLast _ _ pre c he hc]
    _ = pyLstrip (pyRstrip a) ++ pyStrip b := pyLstrip_append _ _ ha
    _ = pyStrip a ++ pyStrip b := rfl

lemma pyRstrip_subset (l : List Char) : pyRstrip l ⊆ l := by
  unfold pyRstrip
  intro c hc
  rw [List.mem_reverse] at hc
  have := (List.dropWhile_sublist (l := l.reverse) (p := pyWs)).subset hc
  exact List.mem_reverse.mp this

lemma pyStrip_subset (l : List Char) : pyStrip l ⊆ l := by
  unfold pyStrip pyLstrip
  intro c hc
  have h1 := (List.dropWhile_sublist (l := pyRstrip l) (p := pyWs)).subset hc
  exact pyRstrip_subset l h1

lemma startsMarker_append (x y : List Char) (h : x ≠ []) :
    startsMarker (x ++ y) = startsMarker x := by
  rcases x with _ | ⟨c, rest⟩
  · exact absurd rfl h
  · rfl

/-- The invariant a repaired token satisfies: its stripped text is
nonempty, does not begin with a contraction marker, and the raw text
contains no newline. -/
def GoodTok (t : WordTok) : Prop :=
  pyStrip t.word.data ≠ [] ∧ startsMarker (pyStrip t.word.data) = false ∧
    ∀ c ∈ t.word.data, c ≠ '\n'

lemma tokenMergeStep_good (acc : List WordTok) (w : WordTok)
    (hacc : acc ≠ []) (hall : ∀ t ∈ acc, GoodTok t)
    (hw1 : pyStrip w.word.data ≠ []) (hw2 : ∀ c ∈ w.word.data, c ≠ '\n') :
    tokenMergeStep acc w ≠ [] ∧ ∀ t ∈ tokenMergeStep acc w, GoodTok t := by
  simp only [tokenMergeStep]
  rw [if_neg hw1]
  by_cases hm : startsMarker (pyStrip w.word.data) = true
  · have hcond : (startsMarker (pyStrip w.word.data) && !acc.isEmpty) = true := by
      rcases List.eq_nil_or_concat acc with rfl | ⟨pre, p, rfl⟩
      · exact absurd rfl hacc
      · simp [hm]
    rw [if_pos hcond]
    rcases List.eq_nil_or_concat acc with rfl | ⟨pre, p, rfl⟩
    · exact absurd rfl hacc
    rw [List.concat_eq_append] at hall ⊢
    simp only [List.getLast?_concat, List.dropLast_concat]
    have hp : GoodTok p := hall p (by simp)
    have hgood : GoodTok ⟨String.mk (pyRstrip p.word.data ++ pyStrip w.word.data),
        p.start, w.stop⟩ := by
      have hkey : pyStrip (pyRstrip p.word.data ++ pyStrip w.word.data) =
          pyStrip p.word.data ++ pyStrip w.word.data :=
        pyStrip_rstrip_append p.word.data w.word.data hp.1 hw1
      refine ⟨?_, ?_, ?_⟩
      · show pyStrip (pyRstrip p.word.data ++ pyStrip w.word.data) ≠ []
        rw [hkey]
        intro hc
        exact hp.1 (List.append_eq_nil.mp hc).1
      · show startsMarker (pyStrip (pyRstrip p.word.data ++ pyStrip w.word.data)) = false
        rw [hkey, startsMarker_append _ _ hp.1]
        exact hp.2.1
      · intro c hc
        show c ≠ '\n'
        rcases List.mem_append.mp hc with hc | hc
        · exact hp.2.2 c (pyRstrip_subset _ hc)
        · exact hw2 c (pyStrip_subset _ hc)
    constructor
    · simp
    · intro t ht
      rcases List.mem_append.mp ht with ht | ht
      · exact hall t (List.mem_append_left _ ht)
      · rw [List.mem_singleton] at ht
        subst ht
        exact hgood
  · have hm' : startsMarker (pyStrip w.word.data) = false := by
      simpa using hm
    rw [if_neg (by simp [hm'])]
    constructor
    · simp
    · intro t ht
      rcases List.mem_append.mp ht with ht | ht
      · exact hall t ht
      · rw [List.mem_singleton] at ht
        subst ht
        exact ⟨hw1, hm', hw2⟩

lemma foldl_tokenMergeStep_good (rest : List WordTok) :
    ∀ acc, acc ≠ [] → (∀ t ∈ acc, GoodTok t) →
    (∀ t ∈ rest, pyStrip t.word.data ≠ [] ∧ ∀ c ∈ t.word.data, c ≠ '\n') →
    List.foldl tokenMergeStep acc rest ≠ [] ∧
      ∀ t ∈ List.foldl tokenMergeStep acc rest, GoodTok t := by
  induction rest with
  | nil => intro acc h1 h2 _; exact ⟨h1, h2⟩
  | cons w rest ih =>
    intro acc h1 h2 hQ
    have hw := hQ w (by simp)
    have hstep := tokenMergeStep_good acc w h1 h2 hw.1 hw.2
    exact ih (tokenMergeStep acc w) hstep.1 hstep.2
      (fun t ht => hQ t (List.mem_cons_of_mem w ht))

lemma mergeSplitTokens_good (ws : List WordTok)
    (hQ : ∀ t ∈ ws, pyStrip t.word.data ≠ [] ∧ ∀ c ∈ t.word.data, c ≠ '\n')
    (hhead : ∀ t, ws.head? = some t → startsMarker (pyStrip t.word.data) = false) :
    ∀ t ∈ mergeSplitTokens ws, GoodTok t := by
  rcases ws with _ | ⟨w0, rest⟩
  · intro t ht
    simp [mergeSplitTokens] at ht
  have hw0 := hQ w0 (by simp)
  have hm0 := hhead w0 rfl
  have hfirst : tokenMergeStep [] w0 = [w0] := by
    simp only [tokenMergeStep]
    rw [if_neg hw0.1, if_neg (by simp)]
    rfl
  show ∀ t ∈ List.foldl tokenMergeStep [] (w0 :: rest), GoodTok t
  rw [List.foldl_cons, hfirst]
  exact (foldl_tokenMergeStep_good rest [w0] (by simp)
    (by intro t ht; rw [List.mem_singleton] at ht; subst ht; exact ⟨hw0.1, hm0, hw0.2⟩)
    (fun t ht => hQ t (List.mem_cons_of_mem w0 ht))).2

lemma mergeSplitTokens_snoc (ws : List WordTok) (w : WordTok) (pre : List WordTok)
    (p : WordTok) (hws : mergeSplitTokens ws = pre ++ [p])
    (hw : pyStrip w.word.data ≠ []) (hm : startsMarker (pyStrip w.word.data) = true) :
    mergeSplitTokens (ws ++ [w]) =
      pre ++ [⟨String.mk (pyRstrip p.word.data ++ pyStrip w.word.data), p.start, w.stop⟩] := by
  unfold mergeSplitTokens at *
  rw [List.foldl_append, hws]
  show tokenMergeStep (pre ++ [p]) w = _
  simp only [tokenMergeStep]
  rw [if_neg hw, if_pos (by simp [hm])]
  simp only [List.getLast?_concat, List.dropLast_concat]

/-! ## Line structure of grouped cues (C9) -/

lemma split1NL_cons_ne (c : Char) (rest : List Char) (hc : ¬ c = '\n') :
    split1NL (c :: rest) =
      match split1NL rest with
      | [] => [[c]]
      | p :: ps => (c :: p) :: ps := by
  simp only [split1NL, if_neg hc]

lemma split1NL_ne_nil (l : List Char) : split1NL l ≠ [] := by
  induction l with
  | nil => simp [split1NL]
  | cons c rest ih =>
    by_cases hc : c = '\n'
    · subst hc; simp [split1NL]
    · rw [split1NL_cons_ne c rest hc]
      rcases hr : split1NL rest with _ | ⟨p, ps⟩
      · simp
      · simp

lemma split1NL_no_nl (l : List Char) (h : '\n' ∉ l) : split1NL l = [l] := by
  induction l with
  | nil => rfl
  | cons c rest ih =>
    have hc : ¬ c = '\n' := by
      intro hcc; exact h (hcc ▸ List.mem_cons_self c rest)
    rw [split1NL_cons_ne c rest hc, ih (fun hm => h (List.mem_cons_of_mem c hm))]

lemma split1NL_append_nl (A R : List Char) (h : '\n' ∉ A) :
    split1NL (A ++ '\n' :: R) = A :: split1NL R := by
  induction A with
  | nil =>
    simp [split1NL]
  | cons c rest ih =>
    have hc : ¬ c = '\n' := by
      intro hcc; exact h (hcc ▸ List.mem_cons_self c rest)
    rw [List.cons_append, split1NL_cons_ne c _ hc,
      ih (fun hm => h (List.mem_cons_of_mem c hm))]

lemma split1NL_join (pieces : List (List Char)) (hne : pieces ≠ [])
    (h : ∀ p ∈ pieces, '\n' ∉ p) : split1NL (joinWith '\n' pieces) = pieces := by
  induction pieces with
  | nil => exact absurd rfl hne
  | cons p rest ih =>
    rcases rest with _ | ⟨q, rest'⟩
    · exact split1NL_no_nl p (h p (by simp))
    · show split1NL (p ++ '\n' :: joinWith '\n' (q :: rest')) = _
      rw [split1NL_append_nl _ _ (h p (by simp)),
        ih (by simp) (fun r hr => h r (List.mem_cons_of_mem p hr))]

lemma mem_joinWith (sep : Char) (pieces : List (List Char)) (c : Char) :
    c ∈ joinWith sep pieces → c = sep ∨ ∃ p ∈ pieces, c ∈ p := by
  induction pieces with
  | nil => intro h; simp [joinWith] at h
  | cons p rest ih =>
    intro h
    rcases rest with _ | ⟨q, rest'⟩
    · exact Or.inr ⟨p, by simp, h⟩
    · rcases List.mem_append.mp h with h | h
      · exact Or.inr ⟨p, by simp, h⟩
      · rcases List.mem_cons.mp h with rfl | h
        · exact Or.inl rfl
        · rcases ih h with h | ⟨r, hr, hc⟩
          · exact Or.inl h
          · exact Or.inr ⟨r, List.mem_cons_of_mem p hr, hc⟩

lemma joinWith_cons (sep : Char) (p : List Char) (ps : List (List Char)) :
    ∃ suf, joinWith sep (p :: ps) = p ++ suf := by
  rcases ps with _ | ⟨q, rest⟩
  · exact ⟨[], by simp [joinWith]⟩
  · exact ⟨sep :: joinWith sep (q :: rest), rfl⟩

lemma lineTextOf_good (ws : List WordTok) (hne : ws ≠ []) (hall : ∀ t ∈ ws, GoodTok t) :
    lineTextOf ws ≠ [] ∧ startsMarker (lineTextOf ws) = false ∧ '\n' ∉ lineTextOf ws := by
  refine ⟨?_, ?_, ?_⟩
  · rcases ws with _ | ⟨t, rest⟩
    · exact absurd rfl hne
    · unfold lineTextOf
      obtain ⟨suf, hsuf⟩ := joinWith_cons ' ' (pyStrip t.word.data)
        (rest.map (fun w => pyStrip w.word.data))
      rw [List.map_cons, hsuf]
      have := (hall t (by simp)).1
      intro hc
      exact this (List.append_eq_nil.mp hc).1
  · rcases ws with _ | ⟨t, rest⟩
    · exact absurd rfl hne
    · unfold lineTextOf
      obtain ⟨suf, hsuf⟩ := joinWith_cons ' ' (pyStrip t.word.data)
        (rest.map (fun w => pyStrip w.word.data))
      rw [List.map_cons, hsuf, startsMarker_append _ _ (hall t (by simp)).1]
      exact (hall t (by simp)).2.1
  · intro hmem
    rcases mem_joinWith ' ' _ '\n' hmem with h | ⟨p, hp, hc⟩
    · exact absurd h (by decide)
    · rw [List.mem_map] at hp
      obtain ⟨t, ht, rfl⟩ := hp
      exact (hall t ht).2.2 '\n' (pyStrip_subset _ hc) rfl

/-- A line emitted by the line builder: nonempty words, all repaired,
text the space-join of their stripped texts. -/
def GoodLine (ln : SubLine) : Prop :=
  ln.lineWords ≠ [] ∧ (∀ t ∈ ln.lineWords, GoodTok t) ∧ ln.lineText = lineTextOf ln.lineWords

lemma buildLinesGo_wf (maxChars : ℕ) (buffer : List WordTok) :
    ∀ (prev? : Option WordTok) (clw : List WordTok) (clen : ℕ) (acc : List SubLine),
    (∀ t ∈ buffer, GoodTok t) → (∀ t ∈ clw, GoodTok t) → (∀ ln ∈ acc, GoodLine ln) →
    ∀ ln ∈ buildLinesGo maxChars prev? buffer clw clen acc, GoodLine ln := by
  induction buffer with
  | nil =>
    intro prev? clw clen acc _ hclw hacc ln hln
    simp only [buildLinesGo] at hln
    split at hln
    · exact hacc ln hln
    · rename_i hclwne
      rcases List.mem_append.mp hln with h | h
      · exact hacc ln h
      · rw [List.mem_singleton] at h
        subst h
        exact ⟨hclwne, hclw, rfl⟩
  | cons w rest ih =>
    intro prev? clw clen acc hbuf hclw hacc ln hln
    have hw : GoodTok w := hbuf w (by simp)
    have hrest : ∀ t ∈ rest, GoodTok t := fun t ht => hbuf t (List.mem_cons_of_mem w ht)
    simp only [buildLinesGo] at hln
    rw [if_neg hw.1] at hln
    split at hln
    · rename_i hcond
      have hclwne : clw ≠ [] := by
        intro hc
        subst hc
        simp at hcond
      refine ih (some w) [w] _ _ hrest ?_ ?_ ln hln
      · intro t ht
        rw [List.mem_singleton] at ht
        subst ht
        exact hw
      · intro l hl
        rcases List.mem_append.mp hl with h | h
        · exact hacc l h
        · rw [List.mem_singleton] at h
          subst h
          exact ⟨hclwne, hclw, rfl⟩
    · split at hln
      · rename_i hcond
        have hclwne : clw ≠ [] := by
          intro hc
          subst hc
          simp at hcond
        refine ih (some w) [w] _ _ hrest ?_ ?_ ln hln
        · intro t ht
          rw [List.mem_singleton] at ht
          subst ht
          exact hw
        · intro l hl
          rcases List.mem_append.mp hl with h | h
          · exact hacc l h
          · rw [List.mem_singleton] at h
            subst h
            exact ⟨hclwne, hclw, rfl⟩
      · refine ih (some w) (clw ++ [w]) _ _ hrest ?_ hacc ln hln
        intro t ht
        rcases List.mem_append.mp ht with h | h
        · exact hclw t h
        · rw [List.mem_singleton] at h
          subst h
          exact hw

/-- Every line of a cue's rendered text is nonempty and does not begin
with a contraction marker. -/
def LinesGood (seg : SRTSegment) : Prop :=
  ∀ line ∈ split1NL seg.text.data, line ≠ [] ∧ startsMarker line = false

lemma listChunksGo_subset {α : Type} (n : ℕ) (fuel : ℕ) :
    ∀ (l : List α) (grp : List α), grp ∈ listChunksGo n fuel l → ∀ x ∈ grp, x ∈ l := by
  induction fuel with
  | zero =>
    intro l grp hgrp
    rcases l with _ | ⟨a, as⟩ <;> simp [listChunksGo] at hgrp
  | succ fuel ih =>
    intro l grp hgrp
    rcases l with _ | ⟨a, as⟩
    · simp [listChunksGo] at hgrp
    · simp only [listChunksGo] at hgrp
      split at hgrp
      · simp at hgrp
      · rcases List.mem_cons.mp hgrp with rfl | hgrp
        · exact fun x hx => List.take_subset _ _ hx
        · intro x hx
          exact List.drop_subset _ _ (ih ((a :: as).drop n) grp hgrp x hx)

lemma segsFromLines_wf (groups : List (List SubLine)) :
    ∀ (base : ℕ), (∀ grp ∈ groups, ∀ ln ∈ grp, GoodLine ln) →
    ∀ seg ∈ segsFromLines base groups, LinesGood seg := by
  induction groups with
  | nil => intro base _ seg hseg; simp [segsFromLines] at hseg
  | cons grp rest ih =>
    intro base hgood seg hseg
    have hrest : ∀ g ∈ rest, ∀ ln ∈ g, GoodLine ln :=
      fun g hg => hgood g (List.mem_cons_of_mem grp hg)
    simp only [segsFromLines] at hseg
    split at hseg
    · exact ih base hrest seg hseg
    · rename_i w0 rest' hsw
      rcases List.mem_cons.mp hseg with rfl | hseg
      · intro line hline
        have hgrpne : grp ≠ [] := by
          intro hc
          subst hc
          simp at hsw
        have hglines : ∀ ln ∈ grp, GoodLine ln := hgood grp (by simp)
        have hpieces : ∀ p ∈ grp.map (·.lineText), '\n' ∉ p := by
          intro p hp
          rw [List.mem_map] at hp
          obtain ⟨ln, hln, rfl⟩ := hp
          have hg := hglines ln hln
          rw [hg.2.2]
          exact (lineTextOf_good ln.lineWords hg.1 hg.2.1).2.2
        have hsplit : split1NL (String.mk (joinWith '\n' (grp.map (·.lineText)))).data =
            grp.map (·.lineText) :=
          split1NL_join _ (by simpa using hgrpne) hpieces
        rw [hsplit] at hline
        rw [List.mem_map] at hline
        obtain ⟨ln, hln, rfl⟩ := hline
        have hg := hglines ln hln
        rw [hg.2.2]
        have := lineTextOf_good ln.lineWords hg.1 hg.2.1
        exact ⟨this.1, this.2.1⟩
      · exact ih (base + 1) hrest seg hseg

lemma create_segment_from_words_wf (maxChars maxLines base : ℕ) (buffer : List WordTok)
    (hbuf : ∀ t ∈ buffer, GoodTok t) :
    ∀ seg ∈ create_segment_from_words maxChars maxLines base buffer, LinesGood seg := by
  intro seg hseg
  unfold create_segment_from_words at hseg
  split at hseg
  · simp at hseg
  · refine segsFromLines_wf _ base ?_ seg hseg
    intro grp hgrp ln hln
    exact buildLinesGo_wf maxChars buffer none [] 0 [] hbuf (by simp) (by simp) ln
      (listChunksGo_subset maxLines _ _ grp hgrp ln hln)

lemma groupLoop_wf (maxChars maxLines : ℕ) (maxDur : ℚ) (tokens : List WordTok) :
    ∀ (prev? : Option WordTok) (cw : List WordTok) (cs? : Option ℚ)
      (segs : List SRTSegment),
    (∀ t ∈ tokens, GoodTok t) → (∀ t ∈ cw, GoodTok t) → (∀ s ∈ segs, LinesGood s) →
    ∀ s ∈ groupLoop maxChars maxLines maxDur prev? tokens cw cs? segs, LinesGood s := by
  induction tokens with
  | nil =>
    intro prev? cw cs? segs _ hcw hsegs s hs
    simp only [groupLoop] at hs
    rcases List.mem_append.mp hs with h | h
    · exact hsegs s h
    · exact create_segment_from_words_wf maxChars maxLines segs.length cw hcw s h
  | cons w rest ih =>
    intro prev? cw cs? segs htok hcw hsegs s hs
    have hw : GoodTok w := htok w (by simp)
    have hrest : ∀ t ∈ rest, GoodTok t := fun t ht => htok t (List.mem_cons_of_mem w ht)
    have hcww : ∀ t ∈ cw ++ [w], GoodTok t := by
      intro t ht
      rcases List.mem_append.mp ht with h | h
      · exact hcw t h
      · rw [List.mem_singleton] at h
        subst h
        exact hw
    simp only [groupLoop] at hs
    rw [if_neg hw.1] at hs
    split at hs
    · refine ih (some w) [] none _ hrest (by simp) ?_ s hs
      intro x hx
      rcases List.mem_append.mp hx with h | h
      · exact hsegs x h
      · exact create_segment_from_words_wf maxChars maxLines segs.length cw hcw x h
    · split at hs
      · split at hs
        · refine ih (some w) [] none _ hrest (by simp) ?_ s hs
          intro x hx
          rcases List.mem_append.mp hx with h | h
          · exact hsegs x h
          · exact create_segment_from_words_wf maxChars maxLines segs.length (cw ++ [w])
              hcww x h
        · exact ih (some w) (cw ++ [w]) (some (cs?.getD w.start)) segs hrest hcww hsegs s hs
      · split at hs
        · refine ih (some w) [] none _ hrest (by simp) ?_ s hs
          intro x hx
          rcases List.mem_append.mp hx with h | h
          · exact hsegs x h
          · exact create_segment_from_words_wf maxChars maxLines segs.length (cw ++ [w])
              hcww x h
        · exact ih (some w) (cw ++ [w]) (some (cs?.getD w.start)) segs hrest hcww hsegs s hs

lemma startsMarker_of_lines (l : List Char)
    (h : ∀ line ∈ split1NL l, line ≠ [] ∧ startsMarker line = false) :
    startsMarker l = false := by
  rcases l with _ | ⟨c, rest⟩
  · rfl
  · by_cases hc : c = '\n'
    · subst hc
      have := h [] (by simp [split1NL])
      exact absurd rfl this.1
    · rw [split1NL_cons_ne c rest hc] at h
      rcases hr : split1NL rest with _ | ⟨p, ps⟩
      · exact absurd hr (split1NL_ne_nil rest)
      · rw [hr] at h
        have := (h (c :: p) (by simp)).2
        exact this

unseal Rat.add Rat.sub Rat.mul Rat.inv in
/-- C9, counterexample.  With a first token whose text is only
whitespace, the Word Grouper's token repair has no previous kept token
to merge into: on `[{" ", 0–1}, {"'a", 1–2}]` the apostrophe-initial
second token is not merged and becomes a cue of its own — a must-merge
token beginning a cue, contradicting the claim. -/
theorem c9_counterexample :
    group_words_into_subtitles [⟨" ", 0, 1⟩, ⟨"'a", 1, 2⟩] = [⟨1, 1, 2, "'a"⟩] ∧
    startsMarker (pyStrip ("'a" : String).data) = true := by
  decide

/-- C9, amended.  (1) Whenever the repaired token list is nonempty, a
further token whose stripped text begins with an apostrophe, hyphen, or
en-dash is merged into the last repaired token: its stripped text is
appended to the `rstrip`ped previous text with no intervening space, and
the previous token's end time becomes the merged token's end.
(2) Provided every token has non-whitespace text with no internal
newline, and the first token does not itself begin with a marker, no
line of any produced cue — in particular no cue text — begins with a
marker character: a must-merge token never begins a new line or cue. -/
theorem c9_token_repair :
    (∀ (ws : List WordTok) (w : WordTok) (pre : List WordTok) (p : WordTok),
      mergeSplitTokens ws = pre ++ [p] →
      pyStrip w.word.data ≠ [] → startsMarker (pyStrip w.word.data) = true →
      mergeSplitTokens (ws ++ [w]) =
        pre ++ [⟨String.mk (pyRstrip p.word.data ++ pyStrip w.word.data),
          p.start, w.stop⟩]) ∧
    (∀ ws : List WordTok,
      (∀ t ∈ ws, pyStrip t.word.data ≠ [] ∧ ∀ c ∈ t.word.data, c ≠ '\n') →
      (∀ t, ws.head? = some t → startsMarker (pyStrip t.word.data) = false) →
      ∀ seg ∈ group_words_into_subtitles ws,
        LinesGood seg ∧ startsMarker seg.text.data = false) := by
  constructor
  · exact mergeSplitTokens_snoc
  · intro ws hQ hhead seg hseg
    unfold group_words_into_subtitles at hseg
    split at hseg
    · simp at hseg
    · have hlines := groupLoop_wf 42 2 7 (mergeSplitTokens ws) none [] none []
        (mergeSplitTokens_good ws hQ hhead) (by simp) (by simp) seg hseg
      exact ⟨hlines, startsMarker_of_lines seg.text.data hlines⟩

/-- C9 witness: the amended statement applied to the tokens of
`"l 'entrée est"` (the upstream tokenizer split of `l'entrée`). -/
theorem c9_token_repair_witness :
    mergeSplitTokens [⟨"l ", 0, 1⟩] = [] ++ [⟨"l ", 0, 1⟩] ∧
    pyStrip ("'entrée" : String).data ≠ [] ∧
    startsMarker (pyStrip ("'entrée" : String).data) = true ∧
    mergeSplitTokens ([⟨"l ", 0, 1⟩] ++ [⟨"'entrée", 1, 2⟩]) =
      [] ++ [⟨String.mk (pyRstrip ("l " : String).data ++
        pyStrip ("'entrée" : String).data), 0, 2⟩] ∧
    ∀ seg ∈ group_words_into_subtitles [⟨"l", 0, 1⟩, ⟨"est", 1, 2⟩],
      LinesGood seg ∧ startsMarker seg.text.data = false :=
  ⟨by decide, by decide, by decide,
    c9_token_repair.1 [⟨"l ", 0, 1⟩] ⟨"'entrée", 1, 2⟩ [] ⟨"l ", 0, 1⟩
      (by decide) (by decide) (by decide),
    c9_token_repair.2 [⟨"l", 0, 1⟩, ⟨"est", 1, 2⟩] (by decide)
      (by
        intro t ht
        simp only [List.head?_cons, Option.some.injEq] at ht
        subst ht
        decide)⟩

/-! ## Timecode round-trip (C4) -/

lemma natRepr_lt10 (n : ℕ) (h : n < 10) : natRepr n = [Nat.digitChar n] := by
  simp [natRepr, natReprGo, h]

lemma natRepr_two_digits (n : ℕ) (h10 : 10 ≤ n) (h100 : n < 100) :
    natRepr n = [Nat.digitChar (n / 10), Nat.digitChar (n % 10)] := by
  obtain ⟨m, rfl⟩ : ∃ m, n = m + 1 := ⟨n - 1, by omega⟩
  show natReprGo (m + 1 + 1) (m + 1) = _
  simp only [natReprGo]
  rw [if_neg (by omega), if_pos (by omega)]
  rfl

lemma natRepr_three_digits (n : ℕ) (h100 : 100 ≤ n) (h1000 : n < 1000) :
    natRepr n = [Nat.digitChar (n / 100), Nat.digitChar (n / 10 % 10),
      Nat.digitChar (n % 10)] := by
  obtain ⟨m, rfl⟩ : ∃ m, n = m + 1 := ⟨n - 1, by omega⟩
  obtain ⟨j, hj⟩ : ∃ j, m = j + 1 := ⟨m - 1, by omega⟩
  subst hj
  show natReprGo (j + 1 + 1 + 1) (j + 1 + 1) = _
  simp only [natReprGo]
  rw [if_neg (by omega), if_neg (by omega), if_pos (by omega), Nat.div_div_eq_div_mul]
  rfl

lemma pad2_eq (n : ℕ) (h : n < 100) :
    pad2 n = [Nat.digitChar (n / 10), Nat.digitChar (n % 10)] := by
  unfold pad2
  by_cases h10 : n < 10
  · rw [if_pos h10, natRepr_lt10 n h10]
    rw [show n / 10 = 0 by omega, show n % 10 = n by omega]
    rfl
  · rw [if_neg h10, natRepr_two_digits n (by omega) h]

lemma pad3_eq (n : ℕ) (h : n < 1000) :
    pad3 n = [Nat.digitChar (n / 100), Nat.digitChar (n / 10 % 10),
      Nat.digitChar (n % 10)] := by
  unfold pad3
  by_cases h10 : n < 10
  · rw [if_pos h10, natRepr_lt10 n h10]
    rw [show n / 100 = 0 by omega, show n / 10 % 10 = 0 by omega, show n % 10 = n by omega]
    rfl
  · rw [if_neg h10]
    by_cases h100 : n < 100
    · rw [if_pos h100, natRepr_two_digits n (by omega) h100]
      rw [show n / 100 = 0 by omega, show n / 10 % 10 = n / 10 by omega]
      rfl
    · rw [if_neg h100, natRepr_three_digits n (by omega) h]

lemma digitVal_digitChar (d : ℕ) (h : d < 10) : digitVal (Nat.digitChar d) = d := by
  interval_cases d <;> decide

lemma isDigitChar_digitChar (d : ℕ) (h : d < 10) : isDigitChar (Nat.digitChar d) = true := by
  interval_cases d <;> decide

lemma floor_natCast_div_toNat (k n : ℕ) : (⌊(k : ℚ) / (n : ℚ)⌋).toNat = k / n := by
  rw [Int.floor_toNat, Nat.floor_div_nat, Nat.floor_natCast]

lemma floor_natCast_div (k n : ℕ) : ⌊(k : ℚ) / (n : ℚ)⌋ = (k / n : ℕ) := by
  have h0 : (0 : ℚ) ≤ (k : ℚ) / (n : ℚ) := by positivity
  have h1 : 0 ≤ ⌊(k : ℚ) / (n : ℚ)⌋ := Int.floor_nonneg.mpr h0
  have h2 := floor_natCast_div_toNat k n
  omega

lemma pymodQ_natCast_div1000 (k b : ℕ) (_hb : 0 < b) :
    pymodQ ((k : ℚ) / 1000) (b : ℚ) = ((k % (1000 * b) : ℕ) : ℚ) / 1000 := by
  unfold pymodQ
  have hdiv : (k : ℚ) / 1000 / (b : ℚ) = (k : ℚ) / ((1000 * b : ℕ) : ℚ) := by
    push_cast
    rw [div_div]
  rw [hdiv, floor_natCast_div k (1000 * b), Int.cast_natCast]
  have key : 1000 * b * (k / (1000 * b)) + k % (1000 * b) = k := Nat.div_add_mod k (1000 * b)
  have keyQ : ((1000 * b * (k / (1000 * b)) : ℕ) : ℚ) + ((k % (1000 * b) : ℕ) : ℚ) = (k : ℚ) := by
    exact_mod_cast key
  push_cast at keyQ
  linear_combination - keyQ / 1000

lemma format_components (k : ℕ) :
    format_srt_timestamp ((k : ℚ) / 1000) =
      String.mk (pad2 (k / 3600000) ++ ':' :: pad2 (k % 3600000 / 60000) ++
        ':' :: pad2 (k % 60000 / 1000) ++ ',' :: pad3 (k % 1000)) := by
  unfold format_srt_timestamp
  have hhours : (⌊(k : ℚ) / 1000 / 3600⌋).toNat = k / 3600000 := by
    have hdiv : (k : ℚ) / 1000 / 3600 = (k : ℚ) / ((3600000 : ℕ) : ℚ) := by
      push_cast
      rw [div_div]
      norm_num
    rw [hdiv, floor_natCast_div_toNat k 3600000]
  have hmin : (⌊pymodQ ((k : ℚ) / 1000) 3600 / 60⌋).toNat = k % 3600000 / 60000 := by
    have h1 : pymodQ ((k : ℚ) / 1000) 3600 = ((k % 3600000 : ℕ) : ℚ) / 1000 := by
      have := pymodQ_natCast_div1000 k 3600 (by norm_num)
      norm_num at this ⊢
      exact this
    rw [h1]
    have hdiv : ((k % 3600000 : ℕ) : ℚ) / 1000 / 60 = ((k % 3600000 : ℕ) : ℚ) / ((60000 : ℕ) : ℚ) := by
      push_cast
      rw [div_div]
      norm_num
    rw [hdiv, floor_natCast_div_toNat (k % 3600000) 60000]
  have hsec : (⌊pymodQ ((k : ℚ) / 1000) 60⌋).toNat = k % 60000 / 1000 := by
    have h1 : pymodQ ((k : ℚ) / 1000) 60 = ((k % 60000 : ℕ) : ℚ) / 1000 := by
      have := pymodQ_natCast_div1000 k 60 (by norm_num)
      norm_num at this ⊢
      exact this
    rw [h1]
    have hdiv : ((k % 60000 : ℕ) : ℚ) / 1000 = ((k % 60000 : ℕ) : ℚ) / ((1000 : ℕ) : ℚ) := by
      norm_num
    rw [hdiv, floor_natCast_div_toNat (k % 60000) 1000]
  have hms : (⌊pymodQ ((k : ℚ) / 1000) 1 * 1000⌋).toNat = k % 1000 := by
    have h1 : pymodQ ((k : ℚ) / 1000) 1 = ((k % 1000 : ℕ) : ℚ) / 1000 := by
      have := pymodQ_natCast_div1000 k 1 (by norm_num)
      norm_num at this ⊢
      exact this
    rw [h1]
    have h2 : ((k % 1000 : ℕ) : ℚ) / 1000 * 1000 = ((k % 1000 : ℕ) : ℚ) := by
      field_simp
    rw [h2, Int.floor_natCast]
    exact Int.toNat_natCast _
  rw [hhours, hmin, hsec, hms]

lemma readTimestampChars_render (h m s ms : ℕ) (rest : List Char)
    (hh : h < 100) (hm : m < 60) (hs : s < 60) (hms : ms < 1000) :
    readTimestampChars ((pad2 h ++ ':' :: pad2 m ++ ':' :: pad2 s ++ ',' :: pad3 ms) ++ rest) =
      some (parse_timestamp h m s ms, rest) := by
  rw [pad2_eq h hh, pad2_eq m (by omega), pad2_eq s (by omega), pad3_eq ms hms]
  simp only [List.cons_append, List.nil_append]
  simp only [readTimestampChars]
  rw [if_pos (by
    simp only [isDigitChar_digitChar _ (by omega : h / 10 < 10),
      isDigitChar_digitChar _ (by omega : h % 10 < 10),
      isDigitChar_digitChar _ (by omega : m / 10 < 10),
      isDigitChar_digitChar _ (by omega : m % 10 < 10),
      isDigitChar_digitChar _ (by omega : s / 10 < 10),
      isDigitChar_digitChar _ (by omega : s % 10 < 10),
      isDigitChar_digitChar _ (by omega : ms / 100 < 10),
      isDigitChar_digitChar _ (by omega : ms / 10 % 10 < 10),
      isDigitChar_digitChar _ (by omega : ms % 10 < 10), Bool.and_self])]
  rw [digitVal_digitChar _ (by omega : h / 10 < 10),
    digitVal_digitChar _ (by omega : h % 10 < 10),
    digitVal_digitChar _ (by omega : m / 10 < 10),
    digitVal_digitChar _ (by omega : m % 10 < 10),
    digitVal_digitChar _ (by omega : s / 10 < 10),
    digitVal_digitChar _ (by omega : s % 10 < 10),
    digitVal_digitChar _ (by omega : ms / 100 < 10),
    digitVal_digitChar _ (by omega : ms / 10 % 10 < 10),
    digitVal_digitChar _ (by omega : ms % 10 < 10)]
  rw [show 10 * (h / 10) + h % 10 = h by omega,
    show 10 * (m / 10) + m % 10 = m by omega,
    show 10 * (s / 10) + s % 10 = s by omega,
    show 100 * (ms / 100) + 10 * (ms / 10 % 10) + ms % 10 = ms by omega]

lemma parse_timestamp_components (k : ℕ) :
    parse_timestamp (k / 3600000) (k % 3600000 / 60000) (k % 60000 / 1000) (k % 1000) =
      (k : ℚ) / 1000 := by
  have key : 3600000 * (k / 3600000) + 60000 * (k % 3600000 / 60000) +
      1000 * (k % 60000 / 1000) + k % 1000 = k := by omega
  have keyQ : ((3600000 * (k / 3600000) + 60000 * (k % 3600000 / 60000) +
      1000 * (k % 60000 / 1000) + k % 1000 : ℕ) : ℚ) = (k : ℚ) := by
    exact_mod_cast key
  push_cast at keyQ
  unfold parse_timestamp
  linear_combination keyQ / 1000

unseal Rat.add Rat.sub Rat.mul Rat.inv in
/-- C4: for every time that is a nonnegative whole number of
milliseconds up to `99:59:59,999`, formatting with
`format_srt_timestamp` and reading the resulting `HH:MM:SS,mmm` string
back through the timecode regex and `parse_timestamp` returns exactly
the original value (truncating, exact round-trip). -/
theorem c4_timestamp_roundtrip (k : ℕ) (hk : k ≤ 359999999) :
    parseTimestampStr (format_srt_timestamp ((k : ℚ) / 1000)) = some ((k : ℚ) / 1000) := by
  rw [format_components k]
  show (readTimestampChars _).map Prod.fst = _
  rw [show pad2 (k / 3600000) ++ ':' :: pad2 (k % 3600000 / 60000) ++
      ':' :: pad2 (k % 60000 / 1000) ++ ',' :: pad3 (k % 1000) =
      (pad2 (k / 3600000) ++ ':' :: pad2 (k % 3600000 / 60000) ++
        ':' :: pad2 (k % 60000 / 1000) ++ ',' :: pad3 (k % 1000)) ++ [] from
    (List.append_nil _).symm]
  rw [readTimestampChars_render (k / 3600000) (k % 3600000 / 60000) (k % 60000 / 1000)
    (k % 1000) [] (by omega) (by omega) (by omega) (by omega)]
  rw [show Option.map (Prod.fst (α := ℚ) (β := List Char))
      (some (parse_timestamp (k / 3600000) (k % 3600000 / 60000) (k % 60000 / 1000)
        (k % 1000), [])) =
      some (parse_timestamp (k / 3600000) (k % 3600000 / 60000) (k % 60000 / 1000)
        (k % 1000)) from rfl]
  rw [parse_timestamp_components k]

unseal Rat.add Rat.sub Rat.mul Rat.inv in
/-- C4 witness: the round-trip at `12:34:56,123`. -/
theorem c4_timestamp_roundtrip_witness :
    45296123 ≤ 359999999 ∧
    parseTimestampStr (format_srt_timestamp ((45296123 : ℕ) / 1000 : ℚ)) =
      some (((45296123 : ℕ) : ℚ) / 1000) :=
  ⟨by omega, c4_timestamp_roundtrip 45296123 (by omega)⟩

/-! ## Serialize/parse round-trip (C5, C10) -/

unseal Rat.add Rat.sub Rat.mul Rat.inv in
/-- C10: `parse_srt` silently skips every block with fewer than three
lines, so a cue whose text is empty does not survive a serialize-parse
cycle — its block has only an index line and a timecode line once the
surrounding blank lines are consumed.  (`parse_srt` never raises: the
embedding is total, the `try/except int` and regex-`None` paths being
the `none` branches of `parseBlock`.) -/
theorem c10_short_block_skip :
    (∀ b : List Char, (split1NL (pyStrip b)).length < 3 → parseBlock b = none) ∧
    parse_srt (serializeSegments [⟨1, 0, 1, ""⟩]) = [] := by
  constructor
  · intro b hb
    unfold parseBlock
    rw [if_pos hb]
  · decide

/-- C10 witness: a two-line block (index and timecode, no text) is
skipped. -/
theorem c10_short_block_skip_witness :
    (split1NL (pyStrip ("1\n00:00:00,000 --> 00:00:01,000" : String).data)).length < 3 ∧
    parseBlock ("1\n00:00:00,000 --> 00:00:01,000" : String).data = none :=
  ⟨by decide, c10_short_block_skip.1 _ (by decide)⟩

lemma pyWs_of_isDigitChar (c : Char) (h : isDigitChar c = true) : pyWs c = false := by
  have hrange : 48 ≤ c.toNat ∧ c.toNat ≤ 57 := by
    simpa [isDigitChar, Bool.and_eq_true, decide_eq_true_eq] using h
  have h1 : c ≠ ' ' := by intro hc; subst hc; simp at hrange
  have h2 : c ≠ '\t' := by intro hc; subst hc; simp at hrange
  have h3 : c ≠ '\n' := by intro hc; subst hc; simp at hrange
  have h4 : c ≠ '\r' := by intro hc; subst hc; simp at hrange
  have h5 : c.toNat ≠ 11 := by omega
  have h6 : c.toNat ≠ 12 := by omega
  simp [pyWs, h1, h2, h3, h4, h5, h6]

lemma natReprGo_digits (fuel : ℕ) :
    ∀ n, ∀ c ∈ natReprGo fuel n, isDigitChar c = true := by
  induction fuel with
  | zero => intro n c hc; simp [natReprGo] at hc
  | succ fuel ih =>
    intro n c hc
    simp only [natReprGo] at hc
    split at hc
    · rename_i h
      rw [List.mem_singleton] at hc
      subst hc
      exact isDigitChar_digitChar n h
    · rcases List.mem_append.mp hc with h | h
      · exact ih (n / 10) c h
      · rw [List.mem_singleton] at h
        subst h
        exact isDigitChar_digitChar _ (by omega)

lemma natRepr_digits (n : ℕ) : ∀ c ∈ natRepr n, isDigitChar c = true :=
  natReprGo_digits (n + 1) n

lemma natRepr_ne_nil (n : ℕ) : natRepr n ≠ [] := by
  unfold natRepr
  simp only [natReprGo]
  split
  · simp
  · simp

lemma digitsVal_natReprGo (fuel : ℕ) :
    ∀ n, n < fuel → digitsVal (natReprGo fuel n) = n := by
  induction fuel with
  | zero => intro n h; omega
  | succ fuel ih =>
    intro n h
    simp only [natReprGo]
    split
    · rename_i h10
      show digitsVal [Nat.digitChar n] = n
      unfold digitsVal
      simp [digitVal_digitChar n h10]
    · rename_i h10
      unfold digitsVal
      rw [List.foldl_append]
      have hrec := ih (n / 10) (by omega)
      unfold digitsVal at hrec
      rw [hrec]
      simp [digitVal_digitChar (n % 10) (by omega)]
      omega

lemma digitsVal_natRepr (n : ℕ) : digitsVal (natRepr n) = n :=
  digitsVal_natReprGo (n + 1) n (by omega)

lemma dropWhile_pyWs_of_all (l : List Char) (h : ∀ c ∈ l, pyWs c = false) :
    l.dropWhile pyWs = l := by
  rcases l with _ | ⟨c, rest⟩
  · rfl
  · rw [List.dropWhile_cons_of_neg]
    rw [h c (by simp)]
    simp

lemma pyStrip_of_all_not_ws (l : List Char) (h : ∀ c ∈ l, pyWs c = false) :
    pyStrip l = l := by
  have hr : pyRstrip l = l := by
    unfold pyRstrip
    rw [dropWhile_pyWs_of_all l.reverse (fun c hc => h c (List.mem_reverse.mp hc)),
      List.reverse_reverse]
  unfold pyStrip pyLstrip
  rw [hr, dropWhile_pyWs_of_all l h]

lemma pyToInt?_natRepr (n : ℕ) : pyToInt? (natRepr n) = some ((n : ℕ) : ℤ) := by
  unfold pyToInt?
  have hstrip : pyStrip (natRepr n) = natRepr n :=
    pyStrip_of_all_not_ws _ (fun c hc => pyWs_of_isDigitChar c (natRepr_digits n c hc))
  rw [hstrip]
  rcases hrep : natRepr n with _ | ⟨c, ds⟩
  · exact absurd hrep (natRepr_ne_nil n)
  · have hdig : isDigitChar c = true := by
      apply natRepr_digits n
      rw [hrep]
      simp
    have hc1 : ¬ c = '-' := by
      intro hc; subst hc; simp [isDigitChar] at hdig
    have hc2 : ¬ c = '+' := by
      intro hc; subst hc; simp [isDigitChar] at hdig
    have hall : (c :: ds).all isDigitChar = true := by
      rw [List.all_eq_true]
      intro x hx
      rw [← hrep] at hx
      exact natRepr_digits n x hx
    simp only [if_neg hc1, if_neg hc2, hall, if_true]
    rw [← hrep, digitsVal_natRepr]

/-- No two consecutive newline characters. -/
def noNLNL : List Char → Bool
  | [] => true
  | [_] => true
  | a :: b :: rest => !(a = '\n' && b = '\n') && noNLNL (b :: rest)

lemma noNLNL_of_no_nl (l : List Char) (h : '\n' ∉ l) : noNLNL l = true := by
  induction l with
  | nil => rfl
  | cons a rest ih =>
    rcases rest with _ | ⟨b, rest'⟩
    · rfl
    · show (!(a = '\n' && b = '\n') && noNLNL (b :: rest')) = true
      have ha : ¬ a = '\n' := fun hc => h (hc ▸ List.mem_cons_self a _)
      rw [ih (fun hm => h (List.mem_cons_of_mem a hm))]
      simp [ha]

lemma noNLNL_append (X Y : List Char) (hx : noNLNL X = true) (hy : noNLNL Y = true)
    (hj : ¬ (X.getLast? = some '\n' ∧ Y.head? = some '\n')) :
    noNLNL (X ++ Y) = true := by
  induction X with
  | nil => simpa using hy
  | cons a rest ih =>
    rcases rest with _ | ⟨b, rest'⟩
    · rcases Y with _ | ⟨d, ys⟩
      · simpa using hx
      · show (!(a = '\n' && d = '\n') && noNLNL (d :: ys)) = true
        rw [hy]
        have : ¬ (a = '\n' ∧ d = '\n') := by
          intro ⟨h1, h2⟩
          exact hj ⟨by simp [h1], by simp [h2]⟩
        by_cases ha : a = '\n'
        · have hd : ¬ d = '\n' := fun hd => this ⟨ha, hd⟩
          simp [hd]
        · simp [ha]
    · show (!(a = '\n' && b = '\n') && noNLNL ((b :: rest') ++ Y)) = true
      have h : (!(decide (a = '\n') && decide (b = '\n')) && noNLNL (b :: rest')) = true := hx
      simp only [Bool.and_eq_true] at h
      have hx' := h.2
      have hab := h.1
      rw [ih hx' (by
        intro ⟨h1, h2⟩
        refine hj ⟨?_, h2⟩
        rw [← h1]
        rfl), hab]
      rfl

lemma noNLNL_cons_cons (a b : Char) (rest : List Char) (h : noNLNL (a :: b :: rest) = true) :
    ¬(a = '\n' ∧ b = '\n') ∧ noNLNL (b :: rest) = true := by
  have h2 : (!(decide (a = '\n') && decide (b = '\n')) && noNLNL (b :: rest)) = true := h
  simp only [Bool.and_eq_true] at h2
  refine ⟨?_, h2.2⟩
  intro ⟨h3, h4⟩
  have h5 := h2.1
  simp [h3, h4] at h5

lemma noNLNL_cons (a : Char) (l : List Char) (hl : noNLNL l = true)
    (hj : ¬(a = '\n' ∧ l.head? = some '\n')) : noNLNL (a :: l) = true := by
  rcases l with _ | ⟨b, rest⟩
  · rfl
  · show (!(a = '\n' && b = '\n') && noNLNL (b :: rest)) = true
    rw [hl]
    by_cases ha : a = '\n'
    · have hb : ¬ b = '\n' := fun hb => hj ⟨ha, by simp [hb]⟩
      simp [hb]
    · simp [ha]

lemma mem_of_head?_eq (l : List Char) (c : Char) (h : l.head? = some c) : c ∈ l := by
  rcases l with _ | ⟨a, t⟩
  · simp at h
  · simp only [List.head?_cons, Option.some.injEq] at h
    subst h
    exact List.mem_cons_self a t

lemma mem_of_getLast?_eq (l : List Char) (c : Char) (h : l.getLast? = some c) : c ∈ l := by
  induction l with
  | nil => simp at h
  | cons a t ih =>
    rcases t with _ | ⟨b, t2⟩
    · have : a = c := by
        have h2 : some a = some c := h
        exact Option.some.inj h2
      subst this
      exact List.mem_cons_self a _
    · have h2 : (b :: t2).getLast? = some c := h
      exact List.mem_cons_of_mem a (ih h2)

lemma getLast?_append_ne (A B : List Char) (hB : B ≠ []) :
    (A ++ B).getLast? = B.getLast? := by
  induction A with
  | nil => rfl
  | cons a t ih =>
    rcases hE : t ++ B with _ | ⟨c, rest⟩
    · rcases B with _ | ⟨d, u⟩
      · exact absurd rfl hB
      · simp at hE
    · rw [List.cons_append, hE]
      show (c :: rest).getLast? = B.getLast?
      rw [← hE, ih]

lemma head?_append_ne (A B : List Char) (hA : A ≠ []) :
    (A ++ B).head? = A.head? := by
  rcases A with _ | ⟨a, t⟩
  · exact absurd rfl hA
  · rfl

lemma split2NL_single (l : List Char) (h : noNLNL l = true) : split2NL l = [l] := by
  induction l with
  | nil => rfl
  | cons a rest ih =>
    rcases rest with _ | ⟨b, rest'⟩
    · rfl
    · obtain ⟨hab, h2⟩ := noNLNL_cons_cons a b rest' h
      by_cases ha : a = '\n'
      · have hb : ¬ b = '\n' := fun hb => hab ⟨ha, hb⟩
        simp [split2NL, ha, hb, ih h2]
      · simp [split2NL, ha, ih h2]

lemma split2NL_sep (A R : List Char) (hA : noNLNL A = true)
    (hlast : A.getLast? ≠ some '\n') :
    split2NL (A ++ '\n' :: '\n' :: R) = A :: split2NL R := by
  induction A with
  | nil => simp [split2NL]
  | cons a rest ih =>
    rcases rest with _ | ⟨b, rest'⟩
    · have ha : ¬ a = '\n' := by
        intro hc
        exact hlast (by simp [hc])
      show split2NL (a :: '\n' :: ('\n' :: R)) = [a] :: split2NL R
      simp [split2NL, ha]
    · obtain ⟨hab, h2⟩ := noNLNL_cons_cons a b rest' hA
      have hlast2 : (b :: rest').getLast? ≠ some '\n' := by
        intro hc
        apply hlast
        show (a :: b :: rest').getLast? = some '\n'
        rw [show (a :: b :: rest').getLast? = (b :: rest').getLast? from rfl]
        exact hc
      have hrec := ih h2 hlast2
      have hrec2 : split2NL (b :: (rest' ++ '\n' :: '\n' :: R)) = (b :: rest') :: split2NL R :=
        hrec
      by_cases ha : a = '\n'
      · have hb : ¬ b = '\n' := fun hb => hab ⟨ha, hb⟩
        show split2NL (a :: b :: (rest' ++ '\n' :: '\n' :: R)) = _
        simp [split2NL, ha, hb, hrec2]
      · show split2NL (a :: b :: (rest' ++ '\n' :: '\n' :: R)) = _
        simp [split2NL, ha, hrec2]

/-- The character stream of one serialized SRT block for the `i`-th cue
(0-based `i`, rendered index `i + 1`): index line, timecode line, text,
with single newlines between them. -/
def blockChars (i : ℕ) (seg : SRTSegment) : List Char :=
  natRepr (i + 1) ++ '\n' :: (timeLineChars seg ++ '\n' :: seg.text.data)

/-- The serialized blocks of a cue list, starting at 0-based position
`i`. -/
def blocksList : ℕ → List SRTSegment → List (List Char)
  | _, [] => []
  | i, seg :: rest => blockChars i seg :: blocksList (i + 1) rest

/-- Join blocks with the blank-line separator `"\n\n"`. -/
def joinBlocks : List (List Char) → List Char
  | [] => []
  | [b] => b
  | b :: bs => b ++ '\n' :: '\n' :: joinBlocks bs

lemma split2NL_joinBlocks (blocks : List (List Char)) (hne : blocks ≠ [])
    (h : ∀ b ∈ blocks, noNLNL b = true ∧ b.getLast? ≠ some '\n') :
    split2NL (joinBlocks blocks) = blocks := by
  induction blocks with
  | nil => exact absurd rfl hne
  | cons b bs ih =>
    rcases bs with _ | ⟨b2, bs'⟩
    · exact split2NL_single b (h b (by simp)).1
    · show split2NL (b ++ '\n' :: '\n' :: joinBlocks (b2 :: bs')) = _
      rw [split2NL_sep b _ (h b (by simp)).1 (h b (by simp)).2,
        ih (by simp) (fun x hx => h x (List.mem_cons_of_mem b hx))]

/-- The `HH:MM:SS,mmm` character block with the four numeric fields. -/
def timecodeChars (h m s ms : ℕ) : List Char :=
  pad2 h ++ ':' :: pad2 m ++ ':' :: pad2 s ++ ',' :: pad3 ms

lemma format_data_eq_timecode (k : ℕ) :
    (format_srt_timestamp ((k : ℚ) / 1000)).data =
      timecodeChars (k / 3600000) (k % 3600000 / 60000) (k % 60000 / 1000) (k % 1000) := by
  rw [format_components k]
  rfl

lemma pad2_ne_nil (n : ℕ) : pad2 n ≠ [] := by
  unfold pad2
  by_cases h : n < 10
  · rw [if_pos h]; simp
  · rw [if_neg h]; exact natRepr_ne_nil n

lemma pad3_ne_nil (n : ℕ) : pad3 n ≠ [] := by
  unfold pad3
  by_cases h : n < 10
  · rw [if_pos h]; simp
  · rw [if_neg h]
    by_cases h2 : n < 100
    · rw [if_pos h2]; simp
    · rw [if_neg h2]; exact natRepr_ne_nil n

lemma pad2_digits (n : ℕ) : ∀ c ∈ pad2 n, isDigitChar c = true := by
  intro c hc
  unfold pad2 at hc
  by_cases h : n < 10
  · rw [if_pos h] at hc
    rcases List.mem_cons.mp hc with rfl | hc2
    · decide
    · exact natRepr_digits n c hc2
  · rw [if_neg h] at hc
    exact natRepr_digits n c hc

lemma pad3_digits (n : ℕ) : ∀ c ∈ pad3 n, isDigitChar c = true := by
  intro c hc
  unfold pad3 at hc
  by_cases h : n < 10
  · rw [if_pos h] at hc
    rcases List.mem_cons.mp hc with rfl | hc2
    · decide
    · rcases List.mem_cons.mp hc2 with rfl | hc3
      · decide
      · exact natRepr_digits n c hc3
  · rw [if_neg h] at hc
    by_cases h2 : n < 100
    · rw [if_pos h2] at hc
      rcases List.mem_cons.mp hc with rfl | hc2
      · decide
      · exact natRepr_digits n c hc2
    · rw [if_neg h2] at hc
      exact natRepr_digits n c hc

lemma timecodeChars_mem (h m s ms : ℕ) (c : Char) (hc : c ∈ timecodeChars h m s ms) :
    isDigitChar c = true ∨ c = ':' ∨ c = ',' := by
  unfold timecodeChars at hc
  simp only [List.mem_append, List.mem_cons] at hc
  rcases hc with ((h1 | h1 | h1) | h1 | h1) | h1 | h1
  · exact Or.inl (pad2_digits h c h1)
  · exact Or.inr (Or.inl h1)
  · exact Or.inl (pad2_digits m c h1)
  · exact Or.inr (Or.inl h1)
  · exact Or.inl (pad2_digits s c h1)
  · exact Or.inr (Or.inr h1)
  · exact Or.inl (pad3_digits ms c h1)

lemma ws_false_of_digit_colon_comma (c : Char)
    (h : isDigitChar c = true ∨ c = ':' ∨ c = ',') : pyWs c = false := by
  rcases h with h | h | h
  · exact pyWs_of_isDigitChar c h
  · subst h; decide
  · subst h; decide

lemma nl_notMem_timecode (h m s ms : ℕ) : '\n' ∉ timecodeChars h m s ms := by
  intro hc
  rcases timecodeChars_mem h m s ms '\n' hc with h1 | h1 | h1
  · simp [isDigitChar] at h1
  · exact absurd h1 (by decide)
  · exact absurd h1 (by decide)

lemma timecodeChars_ne_nil (h m s ms : ℕ) : timecodeChars h m s ms ≠ [] := by
  unfold timecodeChars
  intro hc
  rcases List.append_eq_nil.mp hc with ⟨h1, h2⟩
  simp at h2

lemma timecodeChars_head_digit (h m s ms : ℕ) :
    ∀ c, (timecodeChars h m s ms).head? = some c → isDigitChar c = true := by
  intro c hc
  have hne := pad2_ne_nil h
  unfold timecodeChars at hc
  rw [head?_append_ne _ _ (by
      intro hcc
      rcases List.append_eq_nil.mp hcc with ⟨h1, h2⟩
      simp at h2)] at hc
  rw [head?_append_ne _ _ (by
      intro hcc
      rcases List.append_eq_nil.mp hcc with ⟨h1, h2⟩
      simp at h2)] at hc
  rw [head?_append_ne _ _ hne] at hc
  exact pad2_digits h c (mem_of_head?_eq _ c hc)

lemma timecodeChars_getLast_digit (h m s ms : ℕ) :
    ∀ c, (timecodeChars h m s ms).getLast? = some c → isDigitChar c = true := by
  intro c hc
  unfold timecodeChars at hc
  rw [getLast?_append_ne _ _ (by simp)] at hc
  rw [show (',' :: pad3 ms) = ([','] ++ pad3 ms) from rfl] at hc
  rw [getLast?_append_ne _ _ (pad3_ne_nil ms)] at hc
  exact pad3_digits ms c (mem_of_getLast?_eq _ c hc)

lemma option_all_eq_some {α : Type} (o : Option α) (f : α → Bool) (c : α)
    (ho : o = some c) (h : o.all f = true) : f c = true := by
  subst ho
  simpa using h

lemma pyLstrip_eq_self (X : List Char) (h : ∀ c, X.head? = some c → pyWs c = false) :
    pyLstrip X = X := by
  rcases X with _ | ⟨c, t⟩
  · rfl
  · unfold pyLstrip
    rw [List.dropWhile_cons, if_neg (by simp [h c rfl])]

lemma pyRstrip_eq_self (X : List Char) (h : ∀ c, X.getLast? = some c → pyWs c = false) :
    pyRstrip X = X := by
  rcases List.eq_nil_or_concat X with rfl | ⟨L, b, rfl⟩
  · rfl
  · rw [List.concat_eq_append] at *
    have hb : pyWs b = false := h b (by rw [List.getLast?_concat])
    unfold pyRstrip
    rw [show (L ++ [b]).reverse = b :: L.reverse by simp]
    rw [List.dropWhile_cons, if_neg (by simp [hb])]
    simp

lemma pyRstrip_snoc_ws (X : List Char) (c : Char) (hc : pyWs c = true) :
    pyRstrip (X ++ [c]) = pyRstrip X := by
  unfold pyRstrip
  rw [show (X ++ [c]).reverse = c :: X.reverse by simp]
  rw [List.dropWhile_cons, if_pos (by simp [hc])]

/-- A text that survives the serialize-parse cycle intact: nonempty, no
blank line inside (no two consecutive newlines), and no leading or
trailing whitespace (which the parser's `strip` calls would eat). -/
def TextGood (l : List Char) : Prop :=
  l ≠ [] ∧ noNLNL l = true ∧ l.head?.all (fun c => !pyWs c) = true ∧
    l.getLast?.all (fun c => !pyWs c) = true

/-- A time the timecode format can carry exactly: a whole nonnegative
number of milliseconds below `100` hours. -/
def GoodTime (q : ℚ) : Prop := ∃ k : ℕ, k ≤ 359999999 ∧ q = (k : ℚ) / 1000

/-- A cue the SRT text format can carry exactly. -/
def SegGood (seg : SRTSegment) : Prop :=
  GoodTime seg.start_time ∧ GoodTime seg.end_time ∧ TextGood seg.text.data

lemma nl_notMem_natRepr (n : ℕ) : '\n' ∉ natRepr n := by
  intro h
  exact absurd (natRepr_digits n '\n' h) (by decide)

lemma timeLineChars_eq (seg : SRTSegment) (k1 k2 : ℕ)
    (h1 : seg.start_time = (k1 : ℚ) / 1000) (h2 : seg.end_time = (k2 : ℚ) / 1000) :
    timeLineChars seg =
      timecodeChars (k1 / 3600000) (k1 % 3600000 / 60000) (k1 % 60000 / 1000) (k1 % 1000) ++
        ' ' :: '-' :: '-' :: '>' :: ' ' ::
          timecodeChars (k2 / 3600000) (k2 % 3600000 / 60000) (k2 % 60000 / 1000)
            (k2 % 1000) := by
  unfold timeLineChars
  rw [h1, h2, format_data_eq_timecode, format_data_eq_timecode]

lemma timeLine_no_nl (seg : SRTSegment) (hst : GoodTime seg.start_time)
    (hen : GoodTime seg.end_time) : '\n' ∉ timeLineChars seg := by
  obtain ⟨k1, _, h1⟩ := hst
  obtain ⟨k2, _, h2⟩ := hen
  rw [timeLineChars_eq seg k1 k2 h1 h2]
  intro hc
  rcases List.mem_append.mp hc with hc | hc
  · exact nl_notMem_timecode _ _ _ _ hc
  · simp only [List.mem_cons] at hc
    rcases hc with h | h | h | h | h | h
    · exact absurd h (by decide)
    · exact absurd h (by decide)
    · exact absurd h (by decide)
    · exact absurd h (by decide)
    · exact absurd h (by decide)
    · exact nl_notMem_timecode _ _ _ _ h

lemma timeLine_ne_nil (seg : SRTSegment) (hst : GoodTime seg.start_time)
    (hen : GoodTime seg.end_time) : timeLineChars seg ≠ [] := by
  obtain ⟨k1, _, h1⟩ := hst
  obtain ⟨k2, _, h2⟩ := hen
  rw [timeLineChars_eq seg k1 k2 h1 h2]
  intro hc
  rcases List.append_eq_nil.mp hc with ⟨h3, h4⟩
  simp at h4

lemma timeLine_head_digit (seg : SRTSegment) (hst : GoodTime seg.start_time)
    (hen : GoodTime seg.end_time) :
    ∀ c, (timeLineChars seg).head? = some c → isDigitChar c = true := by
  obtain ⟨k1, _, h1⟩ := hst
  obtain ⟨k2, _, h2⟩ := hen
  intro c hc
  rw [timeLineChars_eq seg k1 k2 h1 h2,
    head?_append_ne _ _ (timecodeChars_ne_nil _ _ _ _)] at hc
  exact timecodeChars_head_digit _ _ _ _ c hc

lemma blockChars_ne_nil (i : ℕ) (seg : SRTSegment) : blockChars i seg ≠ [] := by
  unfold blockChars
  intro hc
  rcases List.append_eq_nil.mp hc with ⟨h1, h2⟩
  simp at h2

lemma blockChars_head_not_ws (i : ℕ) (seg : SRTSegment) :
    ∀ c, (blockChars i seg).head? = some c → pyWs c = false := by
  intro c hc
  unfold blockChars at hc
  rw [head?_append_ne _ _ (natRepr_ne_nil _)] at hc
  exact pyWs_of_isDigitChar c (natRepr_digits _ c (mem_of_head?_eq _ c hc))

lemma blockChars_getLast_not_ws (i : ℕ) (seg : SRTSegment) (ht : TextGood seg.text.data) :
    ∀ c, (blockChars i seg).getLast? = some c → pyWs c = false := by
  intro c hc
  unfold blockChars at hc
  rw [getLast?_append_ne _ _ (by simp)] at hc
  rw [show ('\n' :: (timeLineChars seg ++ '\n' :: seg.text.data)) =
    (['\n'] ++ (timeLineChars seg ++ '\n' :: seg.text.data)) from rfl] at hc
  rw [getLast?_append_ne _ _ (by simp)] at hc
  rw [getLast?_append_ne _ _ (by simp)] at hc
  rw [show ('\n' :: seg.text.data) = (['\n'] ++ seg.text.data) from rfl] at hc
  rw [getLast?_append_ne _ _ ht.1] at hc
  have := option_all_eq_some _ _ c hc ht.2.2.2
  simpa using this

lemma blockChars_noNLNL (i : ℕ) (seg : SRTSegment) (hst : GoodTime seg.start_time)
    (hen : GoodTime seg.end_time) (ht : TextGood seg.text.data) :
    noNLNL (blockChars i seg) = true := by
  have hnl_tl := timeLine_no_nl seg hst hen
  unfold blockChars
  apply noNLNL_append
  · exact noNLNL_of_no_nl _ (nl_notMem_natRepr _)
  · apply noNLNL_cons
    · apply noNLNL_append
      · exact noNLNL_of_no_nl _ hnl_tl
      · apply noNLNL_cons _ _ ht.2.1
        intro ⟨_, hh⟩
        have := option_all_eq_some _ _ '\n' hh ht.2.2.1
        simp [pyWs] at this
      · intro ⟨hl, _⟩
        exact hnl_tl (mem_of_getLast?_eq _ _ hl)
    · intro ⟨_, hh⟩
      rw [head?_append_ne _ _ (timeLine_ne_nil seg hst hen)] at hh
      exact absurd (timeLine_head_digit seg hst hen '\n' hh) (by decide)
  · intro ⟨hl, _⟩
    exact nl_notMem_natRepr _ (mem_of_getLast?_eq _ _ hl)

lemma readTimestamp_timecode (h m s ms : ℕ) (rest : List Char)
    (hh : h < 100) (hm : m < 60) (hs : s < 60) (hms : ms < 1000) :
    readTimestampChars (timecodeChars h m s ms ++ rest) =
      some (parse_timestamp h m s ms, rest) := by
  unfold timecodeChars
  exact readTimestampChars_render h m s ms rest hh hm hs hms

lemma parseTimeLine_good (seg : SRTSegment) (hst : GoodTime seg.start_time)
    (hen : GoodTime seg.end_time) :
    parseTimeLine (timeLineChars seg) = some (seg.start_time, seg.end_time) := by
  obtain ⟨k1, hk1, h1⟩ := hst
  obtain ⟨k2, hk2, h2⟩ := hen
  have hT2mem : ∀ c ∈ timecodeChars (k2 / 3600000) (k2 % 3600000 / 60000) (k2 % 60000 / 1000) (k2 % 1000), pyWs c = false :=
    fun c hc => ws_false_of_digit_colon_comma c (timecodeChars_mem _ _ _ _ c hc)
  have hdropB : List.dropWhile pyWs (' ' :: timecodeChars (k2 / 3600000) (k2 % 3600000 / 60000) (k2 % 60000 / 1000) (k2 % 1000)) = timecodeChars (k2 / 3600000) (k2 % 3600000 / 60000) (k2 % 60000 / 1000) (k2 % 1000) := by
    rw [List.dropWhile_cons, if_pos (by decide)]
    exact dropWhile_pyWs_of_all _ hT2mem
  have hdropA : List.dropWhile pyWs (' ' :: '-' :: '-' :: '>' :: ' ' :: timecodeChars (k2 / 3600000) (k2 % 3600000 / 60000) (k2 % 60000 / 1000) (k2 % 1000)) =
      '-' :: '-' :: '>' :: (' ' :: timecodeChars (k2 / 3600000) (k2 % 3600000 / 60000) (k2 % 60000 / 1000) (k2 % 1000)) := by
    rw [List.dropWhile_cons, if_pos (by decide), List.dropWhile_cons, if_neg (by decide)]
  have hread2 : readTimestampChars (timecodeChars (k2 / 3600000) (k2 % 3600000 / 60000) (k2 % 60000 / 1000) (k2 % 1000)) = some ((k2 : ℚ) / 1000, []) := by
    rw [show timecodeChars (k2 / 3600000) (k2 % 3600000 / 60000) (k2 % 60000 / 1000) (k2 % 1000) = timecodeChars (k2 / 3600000) (k2 % 3600000 / 60000) (k2 % 60000 / 1000) (k2 % 1000) ++ [] from (List.append_nil _).symm,
      readTimestamp_timecode (k2 / 3600000) (k2 % 3600000 / 60000) (k2 % 60000 / 1000)
        (k2 % 1000) [] (by omega) (by omega) (by omega) (by omega),
      parse_timestamp_components k2]
  rw [timeLineChars_eq seg k1 k2 h1 h2, h1, h2]
  unfold parseTimeLine
  rw [readTimestamp_timecode (k1 / 3600000) (k1 % 3600000 / 60000) (k1 % 60000 / 1000)
      (k1 % 1000) (' ' :: '-' :: '-' :: '>' :: ' ' :: timecodeChars (k2 / 3600000) (k2 % 3600000 / 60000) (k2 % 60000 / 1000) (k2 % 1000))
      (by omega) (by omega) (by omega) (by omega),
    parse_timestamp_components k1]
  simp only [hdropA, hdropB, hread2]

lemma joinWith_split1NL (l : List Char) : joinWith '\n' (split1NL l) = l := by
  induction l with
  | nil => rfl
  | cons c rest ih =>
    by_cases hc : c = '\n'
    · subst hc
      have hs0 : split1NL ('\n' :: rest) = [] :: split1NL rest := by simp [split1NL]
      rw [hs0]
      rcases hs : split1NL rest with _ | ⟨p, ps⟩
      · exact absurd hs (split1NL_ne_nil rest)
      · show [] ++ '\n' :: joinWith '\n' (p :: ps) = '\n' :: rest
        rw [← hs, ih]
        rfl
    · rw [split1NL_cons_ne c rest hc]
      rcases hs : split1NL rest with _ | ⟨p, ps⟩
      · exact absurd hs (split1NL_ne_nil rest)
      · rw [hs] at ih
        rcases ps with _ | ⟨q, qs⟩
        · show c :: p = c :: rest
          have hp : p = rest := ih
          rw [hp]
        · show (c :: p) ++ '\n' :: joinWith '\n' (q :: qs) = c :: rest
          have h2 : p ++ '\n' :: joinWith '\n' (q :: qs) = rest := ih
          rw [List.cons_append, h2]

lemma parseBlock_block (i : ℕ) (seg : SRTSegment) (hg : SegGood seg) :
    parseBlock (blockChars i seg) =
      some ⟨((i + 1 : ℕ) : ℤ), seg.start_time, seg.end_time, seg.text⟩ := by
  obtain ⟨hst, hen, ht⟩ := hg
  have hstrip : pyStrip (blockChars i seg) = blockChars i seg := by
    unfold pyStrip
    rw [pyRstrip_eq_self _ (blockChars_getLast_not_ws i seg ht)]
    exact pyLstrip_eq_self _ (blockChars_head_not_ws i seg)
  have hsplit : split1NL (blockChars i seg) =
      natRepr (i + 1) :: timeLineChars seg :: split1NL seg.text.data := by
    unfold blockChars
    rw [split1NL_append_nl _ _ (nl_notMem_natRepr _),
      split1NL_append_nl _ _ (timeLine_no_nl seg hst hen)]
  have hpos : 0 < (split1NL seg.text.data).length :=
    List.length_pos.mpr (split1NL_ne_nil seg.text.data)
  have hlen : ¬ (natRepr (i + 1) :: timeLineChars seg :: split1NL seg.text.data).length < 3 := by
    simp only [List.length_cons]
    omega
  unfold parseBlock
  rw [hstrip, hsplit, if_neg hlen]
  rw [show (natRepr (i + 1) :: timeLineChars seg :: split1NL seg.text.data).headD [] =
    natRepr (i + 1) from rfl]
  rw [pyToInt?_natRepr (i + 1)]
  rw [show (natRepr (i + 1) :: timeLineChars seg :: split1NL seg.text.data).getD 1 [] =
    timeLineChars seg from rfl]
  rw [parseTimeLine_good seg hst hen]
  rw [show (natRepr (i + 1) :: timeLineChars seg :: split1NL seg.text.data).drop 2 =
    split1NL seg.text.data from rfl]
  rw [joinWith_split1NL seg.text.data]

lemma joinWith_cons_ne (sep : Char) (p : List Char) (ps : List (List Char)) (h : ps ≠ []) :
    joinWith sep (p :: ps) = p ++ sep :: joinWith sep ps := by
  rcases ps with _ | ⟨q, rest⟩
  · exact absurd rfl h
  · rfl

lemma serializeLines_join (segs : List SRTSegment) : ∀ i, segs ≠ [] →
    joinWith '\n' (serializeLines i segs) =
      joinBlocks (blocksList i segs) ++ ['\n'] := by
  induction segs with
  | nil => intro i h; exact absurd rfl h
  | cons seg rest ih =>
    intro i _
    rcases rest with _ | ⟨s2, rest'⟩
    · show joinWith '\n'
        [natRepr (i + 1), timeLineChars seg, seg.text.data, []] = _
      simp [joinWith, blocksList, blockChars, joinBlocks, List.append_assoc]
    · have hih := ih (i + 1) (by simp)
      show joinWith '\n' (natRepr (i + 1) :: timeLineChars seg :: seg.text.data ::
        [] :: serializeLines (i + 1) (s2 :: rest')) = _
      have hser : serializeLines (i + 1) (s2 :: rest') ≠ [] := by
        simp [serializeLines]
      rw [joinWith_cons_ne '\n' _ _ (by simp),
        joinWith_cons_ne '\n' _ _ (by simp),
        joinWith_cons_ne '\n' _ _ (by simp [hser]),
        joinWith_cons_ne '\n' _ _ hser, hih]
      rw [show blocksList i (seg :: s2 :: rest') =
        blockChars i seg :: blocksList (i + 1) (s2 :: rest') from rfl]
      rw [show joinBlocks (blockChars i seg :: blocksList (i + 1) (s2 :: rest')) =
        blockChars i seg ++ '\n' :: '\n' :: joinBlocks (blocksList (i + 1) (s2 :: rest'))
        from rfl]
      simp [blockChars, List.append_assoc]

lemma joinBlocks_head_not_ws (blocks : List (List Char))
    (h : ∀ b ∈ blocks, b ≠ [] ∧ (∀ c, b.head? = some c → pyWs c = false)) :
    ∀ c, (joinBlocks blocks).head? = some c → pyWs c = false := by
  rcases blocks with _ | ⟨b, bs⟩
  · intro c hc; simp [joinBlocks] at hc
  · intro c hc
    rcases bs with _ | ⟨b2, bs'⟩
    · exact (h b (by simp)).2 c hc
    · rw [show joinBlocks (b :: b2 :: bs') =
          b ++ '\n' :: '\n' :: joinBlocks (b2 :: bs') from rfl,
        head?_append_ne _ _ (h b (by simp)).1] at hc
      exact (h b (by simp)).2 c hc

lemma joinBlocks_ne_nil (blocks : List (List Char)) (hne : blocks ≠ [])
    (h : ∀ b ∈ blocks, b ≠ []) : joinBlocks blocks ≠ [] := by
  rcases blocks with _ | ⟨b, bs⟩
  · exact absurd rfl hne
  · rcases bs with _ | ⟨b2, bs'⟩
    · exact h b (by simp)
    · show b ++ '\n' :: '\n' :: joinBlocks (b2 :: bs') ≠ []
      simp

lemma joinBlocks_last_not_ws (blocks : List (List Char))
    (h : ∀ b ∈ blocks, b ≠ [] ∧ (∀ c, b.getLast? = some c → pyWs c = false)) :
    ∀ c, (joinBlocks blocks).getLast? = some c → pyWs c = false := by
  induction blocks with
  | nil => intro c hc; simp [joinBlocks] at hc
  | cons b bs ih =>
    rcases bs with _ | ⟨b2, bs'⟩
    · intro c hc; exact (h b (by simp)).2 c hc
    · intro c hc
      have hjne : joinBlocks (b2 :: bs') ≠ [] :=
        joinBlocks_ne_nil _ (by simp) (fun x hx => (h x (List.mem_cons_of_mem b hx)).1)
      rw [show joinBlocks (b :: b2 :: bs') =
          b ++ '\n' :: '\n' :: joinBlocks (b2 :: bs') from rfl,
        getLast?_append_ne _ _ (by simp),
        show ('\n' :: '\n' :: joinBlocks (b2 :: bs')) =
          (['\n', '\n'] ++ joinBlocks (b2 :: bs')) from rfl,
        getLast?_append_ne _ _ hjne] at hc
      exact ih (fun x hx => h x (List.mem_cons_of_mem b hx)) c hc

lemma blocksList_good (segs : List SRTSegment) : ∀ i, (∀ s ∈ segs, SegGood s) →
    ∀ b ∈ blocksList i segs, b ≠ [] ∧ noNLNL b = true ∧
      (∀ c, b.head? = some c → pyWs c = false) ∧
      (∀ c, b.getLast? = some c → pyWs c = false) := by
  induction segs with
  | nil => intro i h b hb; simp [blocksList] at hb
  | cons seg rest ih =>
    intro i h b hb
    rw [show blocksList i (seg :: rest) =
      blockChars i seg :: blocksList (i + 1) rest from rfl] at hb
    rcases List.mem_cons.mp hb with rfl | hb2
    · obtain ⟨hst, hen, ht⟩ := h seg (by simp)
      exact ⟨blockChars_ne_nil i seg, blockChars_noNLNL i seg hst hen ht,
        blockChars_head_not_ws i seg, blockChars_getLast_not_ws i seg ht⟩
    · exact ih (i + 1) (fun s hs => h s (List.mem_cons_of_mem seg hs)) b hb2

lemma pyStrip_serialize (segs : List SRTSegment) (hne : segs ≠ [])
    (hgood : ∀ s ∈ segs, SegGood s) :
    pyStrip (serializeSegments segs).data = joinBlocks (blocksList 0 segs) := by
  have hbg := blocksList_good segs 0 hgood
  rw [show (serializeSegments segs).data = joinWith '\n' (serializeLines 0 segs) from rfl,
    serializeLines_join segs 0 hne]
  unfold pyStrip
  rw [pyRstrip_snoc_ws _ '\n' (by decide)]
  rw [pyRstrip_eq_self _ (joinBlocks_last_not_ws _
    (fun b hb => ⟨(hbg b hb).1, (hbg b hb).2.2.2⟩))]
  exact pyLstrip_eq_self _ (joinBlocks_head_not_ws _
    (fun b hb => ⟨(hbg b hb).1, (hbg b hb).2.2.1⟩))

lemma blocksList_roundtrip (segs : List SRTSegment) : ∀ i, (∀ s ∈ segs, SegGood s) →
    ((blocksList i segs).filterMap parseBlock).map
        (fun s => (s.start_time, s.end_time, s.text)) =
      segs.map (fun s => (s.start_time, s.end_time, s.text)) := by
  induction segs with
  | nil => intro i _; rfl
  | cons seg rest ih =>
    intro i h
    rw [show blocksList i (seg :: rest) =
      blockChars i seg :: blocksList (i + 1) rest from rfl]
    rw [List.filterMap_cons_some (parseBlock_block i seg (h seg (by simp)))]
    rw [List.map_cons, List.map_cons,
      ih (i + 1) (fun s hs => h s (List.mem_cons_of_mem seg hs))]

unseal Rat.add Rat.sub Rat.mul Rat.inv in
/-- C5 counterexample: the cue list `[{0-1, "Salut"}, {2-3, ""}]` satisfies
every §3 invariant (each start below its end, sorted, non-overlapping),
yet serializing and re-parsing returns only the first cue — the empty-text
cue's block has just two lines and `parse_srt` silently skips it, so the
round-trip does not reproduce the same number of cues. -/
theorem c5_counterexample :
    ((0 : ℚ) < 1 ∧ (2 : ℚ) < 3 ∧ (1 : ℚ) ≤ 2) ∧
    (parse_srt (serializeSegments
        [⟨1, 0, 1, "Salut"⟩, ⟨2, 2, 3, ""⟩])).map
        (fun s => (s.start_time, s.end_time, s.text)) =
      [((0 : ℚ), (1 : ℚ), ("Salut" : String))] := by
  decide

/-- C5 (amended): for every cue sequence satisfying the §3 invariants
(start < end per cue, sorted, non-overlapping) whose cues are also
representable in the SRT text format — each time a whole number of
milliseconds below 100 hours, each text nonempty, free of blank lines,
and without leading or trailing whitespace — serializing (re-indexing
1..N, emitting index line, timecode line, text, blank separator) and
re-parsing with `parse_srt` reproduces the same number of cues with the
same start, end, and text per cue. -/
theorem c5_serialize_parse_roundtrip (segs : List SRTSegment)
    (hvalid : ∀ s ∈ segs, s.start_time < s.end_time)
    (hchain : List.Chain' (fun a b => a.end_time ≤ b.start_time) segs)
    (hgood : ∀ s ∈ segs, SegGood s) :
    (parse_srt (serializeSegments segs)).map
        (fun s => (s.start_time, s.end_time, s.text)) =
      segs.map (fun s => (s.start_time, s.end_time, s.text)) := by
  rcases segs with _ | ⟨s1, rest⟩
  · rfl
  · have hbne : blocksList 0 (s1 :: rest) ≠ [] := by
      rw [show blocksList 0 (s1 :: rest) =
        blockChars 0 s1 :: blocksList 1 rest from rfl]
      simp
    have hbprops : ∀ b ∈ blocksList 0 (s1 :: rest),
        noNLNL b = true ∧ b.getLast? ≠ some '\n' := by
      intro b hb
      have hg := blocksList_good _ 0 hgood b hb
      refine ⟨hg.2.1, fun hc => ?_⟩
      have h2 := hg.2.2.2 '\n' hc
      simp [pyWs] at h2
    unfold parse_srt
    rw [pyStrip_serialize _ (by simp) hgood,
      split2NL_joinBlocks _ hbne hbprops]
    exact blocksList_roundtrip _ 0 hgood

/-- C5 witness: the round-trip at two representable cues, one with a
two-line text. -/
theorem c5_serialize_parse_roundtrip_witness :
    (parse_srt (serializeSegments
        [⟨1, 0, 3/2, "Bonjour"⟩, ⟨2, 2, 3, "Deux\nlignes"⟩])).map
        (fun s => (s.start_time, s.end_time, s.text)) =
      [(⟨1, 0, 3/2, "Bonjour"⟩ : SRTSegment), ⟨2, 2, 3, "Deux\nlignes"⟩].map
        (fun s => (s.start_time, s.end_time, s.text)) :=
  c5_serialize_parse_roundtrip [⟨1, 0, 3/2, "Bonjour"⟩, ⟨2, 2, 3, "Deux\nlignes"⟩]
    (by
      intro s hs
      rcases List.mem_cons.mp hs with rfl | hs2
      · show (0 : ℚ) < 3/2
        norm_num
      · rcases List.mem_cons.mp hs2 with rfl | hs3
        · show (2 : ℚ) < 3
          norm_num
        · simp at hs3)
    (by
      simp only [List.chain'_cons, List.chain'_singleton, and_true]
      show (3/2 : ℚ) ≤ 2
      norm_num)
    (by
      intro s hs
      rcases List.mem_cons.mp hs with rfl | hs2
      · exact ⟨⟨0, by norm_num, by show (0 : ℚ) = ((0 : ℕ) : ℚ)/1000; norm_num⟩,
          ⟨1500, by norm_num, by show (3/2 : ℚ) = ((1500 : ℕ) : ℚ)/1000; norm_num⟩,
          by unfold TextGood; decide⟩
      · rcases List.mem_cons.mp hs2 with rfl | hs3
        · exact ⟨⟨2000, by norm_num, by show (2 : ℚ) = ((2000 : ℕ) : ℚ)/1000; norm_num⟩,
            ⟨3000, by norm_num, by show (3 : ℚ) = ((3000 : ℕ) : ℚ)/1000; norm_num⟩,
            by unfold TextGood; decide⟩
        · simp at hs3)
